import Mathlib

/-!
Shallow embedding of the evaluation core of `evaluate.py` from the MLGWSC-1
mock-data-challenge repository.

NumPy arrays are modelled as `List`s.  Floating-point values are modelled as
`ℚ` wherever the code only compares, adds and divides (times, statistics,
tolerances, distances, FAR values), and as `ℝ` where fractional powers and `π`
appear (chirp masses, sensitive volumes).
-/

namespace Evaluate

/-! ### NumPy primitives -/

/-- NumPy `ndarray.sort()` / `np.sort`: ascending sort of an array. -/
def np_sort {α : Type} [LinearOrder α] (l : List α) : List α :=
  List.insertionSort (· ≤ ·) l

/-- NumPy `np.searchsorted(a, v, side='right')` on an ascending-sorted array `a`:
the insertion index, i.e. the number of elements `≤ v`. -/
def searchsorted_right {α : Type} [LinearOrder α] (a : List α) (v : α) : ℕ :=
  a.countP (fun x => decide (x ≤ v))

/-- NumPy `np.searchsorted(a, v, side='left')` on an ascending-sorted array `a`:
the insertion index, i.e. the number of elements `< v`. -/
def searchsorted_left {α : Type} [LinearOrder α] (a : List α) (v : α) : ℕ :=
  a.countP (fun x => decide (x < v))

/-- NumPy `ndarray.max()`.  NumPy raises on an empty array; every caller in the
code checks (or guarantees) non-emptiness first, so the default value only
fills that dead branch. -/
def np_max {α : Type} [LinearOrder α] (dflt : α) (l : List α) : α :=
  match l with
  | [] => dflt
  | x :: xs => xs.foldl max x

/-- NumPy `ndarray.min()`, analogous to `np_max`. -/
def np_min {α : Type} [LinearOrder α] (dflt : α) (l : List α) : α :=
  match l with
  | [] => dflt
  | x :: xs => xs.foldl min x

/-- NumPy `np.cumsum`: running partial sums, same length as the input. -/
def cumsum (l : List ℝ) : List ℝ :=
  match l with
  | [] => []
  | x :: xs => x :: (cumsum xs).map (fun y => x + y)

/-! ### `find_closest_index` (evaluate.py lines 66-97) -/

/-- The per-query computation of `find_closest_index` on a sorted array
(lines 91-97).  `ridxs = np.searchsorted(array, value, side='right')`;
`lidxs = np.maximum(ridxs - 1, 0)` (ℕ subtraction clamps at `0` exactly like
`np.maximum (· - 1) 0`); `comp` compares the two neighbouring distances;
where `lisbetter`, one is subtracted from `ridxs`. -/
def fci_sorted (a : List ℚ) (v : ℚ) : ℕ :=
  let r := searchsorted_right a v
  let l := r - 1
  let comp := |a.getD l 0 - v| < |a.getD (min r (a.length - 1)) 0 - v|
  if r = a.length ∨ comp then r - 1 else r

/-- Function `find_closest_index(array, value, assume_sorted)` (lines 66-97),
vectorised over the query array.  An empty reference array raises
`ValueError`; when `assume_sorted` is false the code sorts a (private) copy
of the array and works on that copy. -/
def find_closest_index (array : List ℚ) (value : List ℚ)
    (assume_sorted : Bool := false) : Except String (List ℕ) :=
  if array.isEmpty then
    .error "Cannot find closest index for empty input array."
  else
    .ok (value.map (fci_sorted (if assume_sorted then array else np_sort array)))

/-! ### `find_injection_times` (evaluate.py lines 13-63) -/

/-- One segment of foreground data: a dataset with attributes `start_time`,
`delta_t` and a length (`len(ds)`). -/
structure Segment where
  start_time : ℚ
  delta_t : ℚ
  len : ℕ
deriving DecidableEq

/-- Line 49: `end = start + len(ds) * ds.attrs['delta_t']`. -/
def seg_end (s : Segment) : ℚ := s.start_time + (s.len : ℚ) * s.delta_t

/-- Function `find_injection_times` (lines 40-63): the total duration is accumulated
from the unpadded segment lengths (line 50) before the padding is applied
(lines 51-52); a padded window is kept only when `end > start` (line 53);
injection `i` is contained when `start <= injtimes[i]` and
`injtimes[i] <= end` holds for at least one window (lines 59-63). -/
def find_injection_times (segs : List Segment) (injtimes : List ℚ)
    (padding_start padding_end : ℚ) : ℚ × List Bool :=
  let duration := (segs.map (fun s => seg_end s - s.start_time)).sum
  let times := segs.filterMap (fun s =>
    let start := s.start_time + padding_start
    let e := seg_end s - padding_end
    if start < e then some (start, e) else none)
  (duration, injtimes.map (fun t => times.any
    (fun w => decide (w.1 ≤ t) && decide (t ≤ w.2))))

/-! ### FAR computation (evaluate.py lines 181-195) -/

/-- The FAR computation applied to a statistic pool (lines 183-186 for the
foreground/false-positive pool, lines 191-194 for the background pool):
`noise_stats` is a sorted copy of the pool, and the rate paired with sorted
position `k` is `(len(noise_stats) - k - 1) / duration`. -/
def far_rates (pool : List ℚ) (duration : ℚ) : List ℚ :=
  (List.range (np_sort pool).length).map
    (fun (k : ℕ) => (((np_sort pool).length : ℚ) - (k : ℚ) - 1) / duration)

/-! ### Generic lemmas about sorted lists and `searchsorted` -/

theorem np_sort_length {α : Type} [LinearOrder α] (l : List α) :
    (np_sort l).length = l.length :=
  List.length_insertionSort _ _

theorem np_sort_sorted {α : Type} [LinearOrder α] (l : List α) :
    (np_sort l).Pairwise (· ≤ ·) :=
  List.sorted_insertionSort _ l

theorem np_sort_perm {α : Type} [LinearOrder α] (l : List α) :
    (np_sort l).Perm l :=
  List.perm_insertionSort _ l

theorem searchsorted_right_le_length {α : Type} [LinearOrder α]
    (a : List α) (v : α) : searchsorted_right a v ≤ a.length :=
  List.countP_le_length _

theorem searchsorted_left_le_length {α : Type} [LinearOrder α]
    (a : List α) (v : α) : searchsorted_left a v ≤ a.length :=
  List.countP_le_length _

theorem sorted_getD_mono {α : Type} [LinearOrder α] {a : List α}
    (h : a.Pairwise (· ≤ ·)) (d : α) {i j : ℕ} (hij : i ≤ j)
    (hj : j < a.length) : a.getD i d ≤ a.getD j d := by
  rcases eq_or_lt_of_le hij with rfl | hlt
  · exact le_refl _
  · rw [List.getD_eq_getElem a d (lt_trans hlt hj), List.getD_eq_getElem a d hj]
    exact List.pairwise_iff_getElem.mp h i j (lt_trans hlt hj) hj hlt

/-- On a sorted list, positions below the right insertion point hold values
`≤ v`. -/
theorem getD_le_of_lt_ssr {α : Type} [LinearOrder α] {a : List α}
    (h : a.Pairwise (· ≤ ·)) (d : α) {v : α} {j : ℕ} (hj : j < a.length)
    (hlt : j < searchsorted_right a v) : a.getD j d ≤ v := by
  induction a generalizing j with
  | nil => simp at hj
  | cons x t ih =>
    rcases List.pairwise_cons.mp h with ⟨hx, ht⟩
    by_cases hxv : x ≤ v
    · cases j with
      | zero => simpa using hxv
      | succ j =>
        have : searchsorted_right (x :: t) v = searchsorted_right t v + 1 := by
          simp [searchsorted_right, List.countP_cons, hxv]
        rw [this] at hlt
        simpa using ih ht (by simpa using hj) (by omega)
    · exfalso
      have h1 : List.countP (fun y => decide (y ≤ v)) t = 0 := by
        rw [List.countP_eq_zero]
        intro y hy
        simp only [decide_eq_true_eq]
        exact fun hyv => hxv (le_trans (hx y hy) hyv)
      have hzero : searchsorted_right (x :: t) v = 0 := by
        simp [searchsorted_right, List.countP_cons, h1, hxv]
      omega

/-- On a sorted list, positions at or above the right insertion point hold
values `> v`. -/
theorem lt_getD_of_ssr_le {α : Type} [LinearOrder α] {a : List α}
    (h : a.Pairwise (· ≤ ·)) (d : α) {v : α} {j : ℕ} (hj : j < a.length)
    (hge : searchsorted_right a v ≤ j) : v < a.getD j d := by
  induction a generalizing j with
  | nil => simp at hj
  | cons x t ih =>
    rcases List.pairwise_cons.mp h with ⟨hx, ht⟩
    by_cases hxv : x ≤ v
    · have heq : searchsorted_right (x :: t) v = searchsorted_right t v + 1 := by
        simp [searchsorted_right, List.countP_cons, hxv]
      cases j with
      | zero => omega
      | succ j =>
        rw [heq] at hge
        simpa using ih ht (by simpa using hj) (by omega)
    · cases j with
      | zero => simpa using lt_of_not_le hxv
      | succ j =>
        have hjt : j < t.length := by simpa using hj
        have hvx : v < x := lt_of_not_le hxv
        have hmem : t.getD j d ∈ t := by
          rw [List.getD_eq_getElem t d hjt]
          exact List.getElem_mem hjt
        have : (x :: t).getD (j + 1) d = t.getD j d := rfl
        rw [this]
        exact lt_of_lt_of_le hvx (hx _ hmem)

theorem fci_sorted_eq (a : List ℚ) (v : ℚ) :
    fci_sorted a v =
      if searchsorted_right a v = a.length ∨
          |a.getD (searchsorted_right a v - 1) 0 - v| <
            |a.getD (min (searchsorted_right a v) (a.length - 1)) 0 - v| then
        searchsorted_right a v - 1
      else searchsorted_right a v := rfl

/-- On a sorted non-empty list the two neighbouring candidates around the
insertion point dominate all entries on their respective sides. -/
theorem abs_le_left {a : List ℚ} (h : a.Pairwise (· ≤ ·)) (v : ℚ) {j : ℕ}
    (hj : j < searchsorted_right a v) (hr : searchsorted_right a v ≤ a.length) :
    |a.getD (searchsorted_right a v - 1) 0 - v| ≤ |a.getD j 0 - v| := by
  have hrpos : 0 < searchsorted_right a v := by omega
  have hr1 : searchsorted_right a v - 1 < a.length := by omega
  have hjlen : j < a.length := by omega
  have hjv : a.getD j 0 ≤ v := getD_le_of_lt_ssr h 0 hjlen hj
  have hlv : a.getD (searchsorted_right a v - 1) 0 ≤ v :=
    getD_le_of_lt_ssr h 0 hr1 (by omega)
  have hmono : a.getD j 0 ≤ a.getD (searchsorted_right a v - 1) 0 :=
    sorted_getD_mono h 0 (by omega) hr1
  rw [abs_of_nonpos (by linarith), abs_of_nonpos (by linarith)]
  linarith

theorem abs_le_right {a : List ℚ} (h : a.Pairwise (· ≤ ·)) (v : ℚ) {j : ℕ}
    (hj : searchsorted_right a v ≤ j) (hjlen : j < a.length) :
    |a.getD (searchsorted_right a v) 0 - v| ≤ |a.getD j 0 - v| := by
  have hrlen : searchsorted_right a v < a.length := by omega
  have hjv : v < a.getD j 0 := lt_getD_of_ssr_le h 0 hjlen hj
  have hrv : v < a.getD (searchsorted_right a v) 0 :=
    lt_getD_of_ssr_le h 0 hrlen (le_refl _)
  have hmono : a.getD (searchsorted_right a v) 0 ≤ a.getD j 0 :=
    sorted_getD_mono h 0 hj hjlen
  rw [abs_of_nonneg (by linarith), abs_of_nonneg (by linarith)]
  linarith

/-- Claim C1: on every non-empty ascending-sorted reference array the matcher
returns a valid index whose element is at least as close to the query as
every other element; on an exact tie between the two neighbouring candidates
the higher index (the right insertion point) is returned; queries below the
first element return index `0` and queries beyond the last element return the
last index. -/
theorem find_closest_index_correct (a : List ℚ) (v : ℚ)
    (hs : a.Pairwise (· ≤ ·)) (hne : a ≠ []) :
    fci_sorted a v < a.length ∧
    (∀ j, j < a.length → |a.getD (fci_sorted a v) 0 - v| ≤ |a.getD j 0 - v|) ∧
    (0 < searchsorted_right a v → searchsorted_right a v < a.length →
      |a.getD (searchsorted_right a v - 1) 0 - v| =
        |a.getD (searchsorted_right a v) 0 - v| →
      fci_sorted a v = searchsorted_right a v) ∧
    (v < a.getD 0 0 → fci_sorted a v = 0) ∧
    (a.getD (a.length - 1) 0 < v → fci_sorted a v = a.length - 1) := by
  have hn : 0 < a.length := List.length_pos.mpr hne
  have hrle : searchsorted_right a v ≤ a.length := searchsorted_right_le_length a v
  refine ⟨?_, ?_, ?_, ?_, ?_⟩
  · rw [fci_sorted_eq]
    split
    · omega
    · rename_i hcond
      push_neg at hcond
      omega
  · intro j hjlen
    rw [fci_sorted_eq]
    by_cases hrn : searchsorted_right a v = a.length
    · rw [if_pos (Or.inl hrn)]
      exact abs_le_left hs v (by omega) hrle
    · have hrlt : searchsorted_right a v < a.length := by omega
      have hmin : min (searchsorted_right a v) (a.length - 1) =
          searchsorted_right a v := by omega
      by_cases hcomp : |a.getD (searchsorted_right a v - 1) 0 - v| <
          |a.getD (min (searchsorted_right a v) (a.length - 1)) 0 - v|
      · rw [if_pos (Or.inr hcomp)]
        rw [hmin] at hcomp
        rcases lt_or_le j (searchsorted_right a v) with hj | hj
        · exact abs_le_left hs v hj hrle
        · exact le_trans (le_of_lt hcomp) (abs_le_right hs v hj hjlen)
      · rw [if_neg (by push_neg; exact ⟨hrn, by simpa using hcomp⟩)]
        rw [hmin] at hcomp
        push_neg at hcomp
        rcases lt_or_le j (searchsorted_right a v) with hj | hj
        · exact le_trans hcomp (abs_le_left hs v hj hrle)
        · exact abs_le_right hs v hj hjlen
  · intro hrpos hrlt htie
    rw [fci_sorted_eq]
    have hmin : min (searchsorted_right a v) (a.length - 1) =
        searchsorted_right a v := by omega
    rw [hmin, if_neg]
    push_neg
    exact ⟨by omega, by rw [htie]⟩
  · intro hbelow
    have hr0 : searchsorted_right a v = 0 := by
      rw [searchsorted_right, List.countP_eq_zero]
      intro y hy
      simp only [decide_eq_true_eq]
      intro hyv
      obtain ⟨m, hm, rfl⟩ := List.mem_iff_getElem.mp hy
      have h0 : a.getD 0 0 ≤ a.getD m 0 := sorted_getD_mono hs 0 (Nat.zero_le m) hm
      rw [List.getD_eq_getElem a 0 hm] at h0
      linarith
    rw [fci_sorted_eq, hr0]
    have hmin : min 0 (a.length - 1) = 0 := by omega
    rw [if_neg]
    push_neg
    constructor
    · omega
    · simp [hmin]
  · intro habove
    have hrn : searchsorted_right a v = a.length := by
      rw [searchsorted_right, List.countP_eq_length]
      intro y hy
      simp only [decide_eq_true_eq]
      obtain ⟨m, hm, rfl⟩ := List.mem_iff_getElem.mp hy
      have h0 : a.getD m 0 ≤ a.getD (a.length - 1) 0 :=
        sorted_getD_mono hs 0 (by omega) (by omega)
      rw [List.getD_eq_getElem a 0 hm] at h0
      linarith
    rw [fci_sorted_eq, if_pos (Or.inl hrn), hrn]

/-- Witness for C1 at a concrete input. -/
theorem find_closest_index_correct_witness :
    ([1, 3] : List ℚ).Pairwise (· ≤ ·) ∧ ([1, 3] : List ℚ) ≠ [] ∧
    (fci_sorted [1, 3] 2 < 2 ∧
      ∀ j, j < 2 → |([1, 3] : List ℚ).getD (fci_sorted [1, 3] 2) 0 - 2| ≤
        |([1, 3] : List ℚ).getD j 0 - 2|) :=
  ⟨by decide, by decide,
    (find_closest_index_correct [1, 3] 2 (by decide) (by decide)).1,
    fun j hj =>
      (find_closest_index_correct [1, 3] 2 (by decide) (by decide)).2.1 j hj⟩

/-- Claim C10: with `assume_sorted` false the matcher works on an
ascending-sorted copy of the reference array, so its result coincides with
calling it on the pre-sorted array with `assume_sorted` true; consequently the
returned indices are positions in the sorted copy and, for an unsorted input,
in general not the position in the original array of the closest element
(witnessed by `R = [5, 1]`, `v = 5`: index `1` is returned although the
element of the original array closest to `5` sits at index `0`). -/
theorem find_closest_index_unsorted_spec :
    (∀ (array value : List ℚ),
      find_closest_index array value false =
        find_closest_index (np_sort array) value true) ∧
    (find_closest_index [5, 1] [5] false = .ok [1] ∧
      |([5, 1] : List ℚ).getD 0 0 - 5| < |([5, 1] : List ℚ).getD 1 0 - 5|) := by
  constructor
  · intro array value
    have hlen : (np_sort array).isEmpty = array.isEmpty := by
      rcases array with _ | ⟨x, t⟩
      · rfl
      · have h1 : (np_sort (x :: t)).length = (x :: t).length :=
          List.length_insertionSort _ _
        rcases hemp : np_sort (x :: t) with _ | ⟨y, s⟩
        · rw [hemp] at h1
          simp at h1
        · rfl
    simp [find_closest_index, hlen]
  · constructor
    · rfl
    · norm_num

/-! ### FAR claims (C4 and C5) -/

/-- The FAR computation pairs the statistic at sorted position `k`
(0-indexed) among `N` with the rate `(N - k - 1) / duration`, one rate per
input statistic, the rate array implicitly paired with the ascending-sorted
statistic array (a sorted permutation of the pool). -/
theorem far_rates_formula (pool : List ℚ) (duration : ℚ) :
    (far_rates pool duration).length = pool.length ∧
    (∀ k, k < pool.length →
      (far_rates pool duration).getD k 0 =
        ((pool.length : ℚ) - (k : ℚ) - 1) / duration) ∧
    (np_sort pool).Pairwise (· ≤ ·) ∧ (np_sort pool).Perm pool := by
  refine ⟨?_, ?_, np_sort_sorted pool, np_sort_perm pool⟩
  · simp only [far_rates, List.length_map, List.length_range]
    exact np_sort_length pool
  · intro k hk
    have hk2 : k < ((List.range (np_sort pool).length).map
        (fun (k : ℕ) =>
          (((np_sort pool).length : ℚ) - (k : ℚ) - 1) / duration)).length := by
      rw [List.length_map, List.length_range, np_sort_length]
      exact hk
    simp only [far_rates]
    rw [List.getD_eq_getElem _ _ hk2]
    simp only [List.getElem_map, List.getElem_range]
    rw [np_sort_length]

/-- Counterexample to claim C5 as stated: for the single statistic `8` over
duration `100` the code pairs the largest (and only) statistic with the rate
`(1 - 0 - 1)/100 = 0`, not `1/100`. -/
theorem far_rates_largest_counterexample :
    far_rates [8] 100 = [0] ∧ ((0 : ℚ) ≠ 1 / 100) := by
  constructor
  · norm_num [far_rates, np_sort, List.insertionSort, List.orderedInsert,
      List.range_succ]
  · norm_num

/-- Claim C5 amended: the FAR value paired with the largest statistic of a
non-empty pool is `0` (the count of statistics strictly above it, divided by
the duration), not `1/duration`; every pool element is bounded by the sorted
pool's last entry, which carries that rate. -/
theorem far_rates_largest (pool : List ℚ) (duration : ℚ) (hne : pool ≠ []) :
    (far_rates pool duration).getD (pool.length - 1) 0 = 0 ∧
    (∀ x ∈ pool, x ≤ (np_sort pool).getD (pool.length - 1) 0) := by
  have hn : 0 < pool.length := List.length_pos.mpr hne
  constructor
  · have h := (far_rates_formula pool duration).2.1 (pool.length - 1) (by omega)
    rw [h]
    have hcast : ((pool.length - 1 : ℕ) : ℚ) = (pool.length : ℚ) - 1 := by
      push_cast [Nat.cast_sub hn]
      ring
    have hz : (pool.length : ℚ) - (((pool.length - 1 : ℕ) : ℚ)) - 1 = 0 := by
      rw [hcast]
      ring
    rw [hz, zero_div]
  · intro x hx
    have hsorted : (np_sort pool).Pairwise (· ≤ ·) := np_sort_sorted pool
    have hlen : (np_sort pool).length = pool.length := np_sort_length pool
    have hmem : x ∈ np_sort pool := ((np_sort_perm pool).mem_iff).mpr hx
    obtain ⟨m, hm, rfl⟩ := List.mem_iff_getElem.mp hmem
    have hm2 : m < pool.length := by omega
    have hmono := sorted_getD_mono hsorted 0
      (i := m) (j := pool.length - 1) (by omega) (by omega)
    rw [List.getD_eq_getElem _ 0 (by omega)] at hmono
    exact hmono

/-- Witness for C5 (amended): a single statistic over duration `100` receives
rate `0`. -/
theorem far_rates_largest_witness :
    ([8] : List ℚ) ≠ [] ∧ (far_rates [8] 100).getD 0 0 = 0 :=
  ⟨by decide, by simpa using (far_rates_largest [8] 100 (by decide)).1⟩

/-! ### Injection-window filter (C7) -/

/-- Counterexample to claim C7 as stated: the code tests
`start <= injtimes` and `injtimes <= end` (line 61), a closed interval, so an
injection exactly at the padded window's right endpoint `end' = 10` is
counted as contained even though the claimed half-open window
`[start+pad, end-pad)` excludes it. -/
theorem find_injection_times_counterexample :
    (find_injection_times [⟨0, 1, 10⟩] [10] 0 0).2 = [true] ∧
    ¬ ((10 : ℚ) < seg_end ⟨0, 1, 10⟩ - 0) := by
  constructor
  · norm_num [find_injection_times, seg_end]
  · norm_num [seg_end]

/-- Claim C7 amended: the total duration is the sum of the unpadded segment
lengths (padding-discarded segments included), and injection `j` is contained
iff its time lies in the closed padded window
`[start+pad_start, end-pad_end]` of at least one segment, windows of
non-positive length being discarded. -/
theorem find_injection_times_spec (segs : List Segment) (injtimes : List ℚ)
    (ps pe : ℚ) :
    (find_injection_times segs injtimes ps pe).1 =
      (segs.map (fun s => seg_end s - s.start_time)).sum ∧
    ∀ j, j < injtimes.length →
      ((find_injection_times segs injtimes ps pe).2.getD j false = true ↔
        ∃ s ∈ segs, s.start_time + ps < seg_end s - pe ∧
          s.start_time + ps ≤ injtimes.getD j 0 ∧
          injtimes.getD j 0 ≤ seg_end s - pe) := by
  constructor
  · rfl
  · intro j hj
    rw [List.getD_eq_getElem injtimes 0 hj]
    simp only [find_injection_times]
    rw [List.getD_eq_getElem _ false (by simpa using hj)]
    simp only [List.getElem_map, List.any_eq_true, List.mem_filterMap,
      Bool.and_eq_true, decide_eq_true_eq]
    constructor
    · rintro ⟨w, ⟨s, hs, hw⟩, hc1, hc2⟩
      by_cases hpos : s.start_time + ps < seg_end s - pe
      · rw [if_pos hpos] at hw
        cases hw
        exact ⟨s, hs, hpos, hc1, hc2⟩
      · rw [if_neg hpos] at hw
        cases hw
    · rintro ⟨s, hs, hpos, h1, h2⟩
      exact ⟨(s.start_time + ps, seg_end s - pe),
        ⟨s, hs, by rw [if_pos hpos]⟩, h1, h2⟩

/-- Witness for C7 (amended) at a concrete input: segment `[0, 100)`,
padding `(10, 10)`, injection at `50` is contained, duration is `100`. -/
theorem find_injection_times_spec_witness :
    (0 : ℕ) < ([50] : List ℚ).length ∧
    (find_injection_times [⟨0, 1, 100⟩] [50] 10 10).1 = 100 ∧
    ((find_injection_times [⟨0, 1, 100⟩] [50] 10 10).2.getD 0 false = true ↔
      ∃ s ∈ [(⟨0, 1, 100⟩ : Segment)],
        s.start_time + 10 < seg_end s - 10 ∧
        s.start_time + 10 ≤ ([50] : List ℚ).getD 0 0 ∧
        ([50] : List ℚ).getD 0 0 ≤ seg_end s - 10) := by
  refine ⟨by decide, ?_, ?_⟩
  · have h := (find_injection_times_spec [⟨0, 1, 100⟩] [50] 10 10).1
    rw [h]
    norm_num [seg_end]
  · exact (find_injection_times_spec [⟨0, 1, 100⟩] [50] 10 10).2 0 (by decide)

/-! ### Events and the classification chain of `get_stats`
(evaluate.py lines 104-179) -/

/-- One detected event: a column of the three-row event array
(`time`, `stat`, `var` in the file layout read by `main`). -/
structure Event where
  time : ℚ
  stat : ℚ
  var : ℚ
deriving DecidableEq, Inhabited

/-- NumPy `np.argsort` of a key array: the positions `0..n-1` sorted by key. -/
def np_argsort {α : Type} [LinearOrder α] (dflt : α) (keys : List α) : List ℕ :=
  List.insertionSort (fun a b => keys.getD a dflt ≤ keys.getD b dflt)
    (List.range keys.length)

/-- Lines 152-153: `sidxs = fgevents[0].argsort(); fgevents = fgevents.T[sidxs].T`. -/
def sort_fg (fg : List Event) : List Event :=
  (np_argsort 0 (fg.map Event.time)).map (fun j => fg.getD j default)

/-- Line 156: `idxs = find_closest_index(injtimes, fgevents[0])`; the default
`assume_sorted=False` means the matcher works on a sorted copy of `injtimes`. -/
def matched_idxs (injtimes : List ℚ) (fg : List Event) : List ℕ :=
  fg.map (fun e => fci_sorted (np_sort injtimes) e.time)

/-- Line 158: `diff = np.abs(injtimes[idxs] - fgevents[0])` — note that the
*original* (not the sorted) `injtimes` is indexed. -/
def event_diffs (injtimes : List ℚ) (fg : List Event) : List ℚ :=
  List.zipWith (fun (i : ℕ) (e : Event) => |injtimes.getD i 0 - e.time|)
    (matched_idxs injtimes fg) fg

/-- Line 161: `tpbidxs = diff <= fgevents[2]`. -/
def tp_flags (injtimes : List ℚ) (fg : List Event) : List Bool :=
  List.zipWith (fun (d : ℚ) (e : Event) => decide (d ≤ e.var))
    (event_diffs injtimes fg) fg

/-- Lines 162: `tpidxs = np.arange(len(fgevents[0]))[tpbidxs]`. -/
def tp_event_indices (injtimes : List ℚ) (fg : List Event) : List ℕ :=
  (List.range fg.length).filter (fun j => (tp_flags injtimes fg).getD j false)

/-- Lines 163-164: `fpidxs = np.arange(len(fgevents[0]))[fpbidxs]` with
`fpbidxs = diff > fgevents[2]`. -/
def fp_event_indices (injtimes : List ℚ) (fg : List Event) : List ℕ :=
  (List.range fg.length).filter (fun j => ! (tp_flags injtimes fg).getD j false)

/-- Line 170: `ret['found-indices'] = np.arange(len(injtimes))[idxs]` — plain
fancy indexing of `arange`, i.e. the matched index of *every* foreground
event, true positive or not. -/
def found_indices (numInj : ℕ) (idxs : List ℕ) : List ℕ :=
  idxs.map (fun i => (List.range numInj).getD i 0)

/-- Lines 171-172: `ret['missed-indices'] = np.setdiff1d(np.arange(len(injtimes)),
ret['found-indices'])`. -/
def missed_indices (numInj : ℕ) (idxs : List ℕ) : List ℕ :=
  (List.range numInj).filter (fun i => decide (i ∉ found_indices numInj idxs))

/-- Counterexample to claim C6 as stated: one injection at time `0` and a
single foreground event at time `100` with tolerance `1` is a false positive
(its tp flag is `false`), yet its matched index `0` appears in
`found-indices`; the claimed "exactly the injections with at least one true
positive" would make `found-indices` empty. -/
theorem found_missed_counterexample :
    found_indices 1 (matched_idxs [0] (sort_fg [⟨100, 1, 1⟩])) = [0] ∧
    tp_flags [0] (sort_fg [⟨100, 1, 1⟩]) = [false] := by
  constructor <;>
    norm_num [found_indices, matched_idxs, sort_fg, np_argsort, np_sort,
      fci_sorted, searchsorted_right, tp_flags, event_diffs,
      List.insertionSort, List.orderedInsert]

/-- Claim C6 amended: whenever every matched index is in range (which holds
by construction, the matcher returning indices into the injection array),
`found-indices` is exactly the list of matched injection indices of *all*
foreground events — with multiplicity, true positives and false positives
alike — and `missed-indices` is the complement, within `0..M-1`, of the set
of matched indices. -/
theorem found_missed_indices_spec (numInj : ℕ) (idxs : List ℕ)
    (h : ∀ x ∈ idxs, x < numInj) :
    found_indices numInj idxs = idxs ∧
    (∀ i, i ∈ missed_indices numInj idxs ↔ i < numInj ∧ i ∉ idxs) := by
  have hfound : found_indices numInj idxs = idxs := by
    rw [found_indices]
    conv_rhs => rw [(List.map_id idxs).symm]
    apply List.map_congr_left
    intro x hx
    have hxlt : x < numInj := h x hx
    rw [List.getD_eq_getElem _ 0 (by simpa using hxlt), List.getElem_range]
    rfl
  refine ⟨hfound, ?_⟩
  intro i
  rw [missed_indices, List.mem_filter, hfound, List.mem_range]
  simp only [decide_eq_true_eq]

/-- Witness for C6 (amended). -/
theorem found_missed_indices_spec_witness :
    (∀ x ∈ [1, 0], x < 3) ∧
    (found_indices 3 [1, 0] = [1, 0] ∧
      (2 ∈ missed_indices 3 [1, 0] ↔ 2 < 3 ∧ 2 ∉ [1, 0])) :=
  ⟨by decide, (found_missed_indices_spec 3 [1, 0] (by decide)).1,
    (found_missed_indices_spec 3 [1, 0] (by decide)).2 2⟩

/-! ### Generic lemmas: left insertion point, argsort, NumPy max -/

theorem getD_lt_of_lt_ssl {α : Type} [LinearOrder α] {a : List α}
    (h : a.Pairwise (· ≤ ·)) (d : α) {v : α} {j : ℕ} (hj : j < a.length)
    (hlt : j < searchsorted_left a v) : a.getD j d < v := by
  induction a generalizing j with
  | nil => simp at hj
  | cons x t ih =>
    rcases List.pairwise_cons.mp h with ⟨hx, ht⟩
    by_cases hxv : x < v
    · cases j with
      | zero => simpa using hxv
      | succ j =>
        have heq : searchsorted_left (x :: t) v = searchsorted_left t v + 1 := by
          simp [searchsorted_left, List.countP_cons, hxv]
        rw [heq] at hlt
        simpa using ih ht (by simpa using hj) (by omega)
    · have h1 : List.countP (fun y => decide (y < v)) t = 0 := by
        rw [List.countP_eq_zero]
        intro y hy
        simp only [decide_eq_true_eq]
        exact fun hyv => hxv (lt_of_le_of_lt (hx y hy) hyv)
      have hzero : searchsorted_left (x :: t) v = 0 := by
        simp [searchsorted_left, List.countP_cons, h1, hxv]
      omega

theorem le_getD_of_ssl_le {α : Type} [LinearOrder α] {a : List α}
    (h : a.Pairwise (· ≤ ·)) (d : α) {v : α} {j : ℕ} (hj : j < a.length)
    (hge : searchsorted_left a v ≤ j) : v ≤ a.getD j d := by
  induction a generalizing j with
  | nil => simp at hj
  | cons x t ih =>
    rcases List.pairwise_cons.mp h with ⟨hx, ht⟩
    by_cases hxv : x < v
    · have heq : searchsorted_left (x :: t) v = searchsorted_left t v + 1 := by
        simp [searchsorted_left, List.countP_cons, hxv]
      cases j with
      | zero => omega
      | succ j =>
        rw [heq] at hge
        simpa using ih ht (by simpa using hj) (by omega)
    · cases j with
      | zero => simpa using le_of_not_lt hxv
      | succ j =>
        have hjt : j < t.length := by simpa using hj
        have hvx : v ≤ x := le_of_not_lt hxv
        have hmem : t.getD j d ∈ t := by
          rw [List.getD_eq_getElem t d hjt]
          exact List.getElem_mem hjt
        have : (x :: t).getD (j + 1) d = t.getD j d := rfl
        rw [this]
        exact le_trans hvx (hx _ hmem)

theorem np_argsort_sorted {α : Type} [LinearOrder α] (dflt : α) (keys : List α) :
    (np_argsort dflt keys).Pairwise
      (fun a b => keys.getD a dflt ≤ keys.getD b dflt) := by
  haveI : IsTotal ℕ (fun a b => keys.getD a dflt ≤ keys.getD b dflt) :=
    ⟨fun a b => le_total _ _⟩
  haveI : IsTrans ℕ (fun a b => keys.getD a dflt ≤ keys.getD b dflt) :=
    ⟨fun a b c h1 h2 => le_trans h1 h2⟩
  exact List.sorted_insertionSort _ _

theorem np_argsort_perm {α : Type} [LinearOrder α] (dflt : α) (keys : List α) :
    (np_argsort dflt keys).Perm (List.range keys.length) :=
  List.perm_insertionSort _ _

theorem foldl_max_mem {α : Type} [LinearOrder α] :
    ∀ (xs : List α) (x : α), xs.foldl max x ∈ x :: xs := by
  intro xs
  induction xs with
  | nil => intro x; simp
  | cons y ys ih =>
    intro x
    have h := ih (max x y)
    have hfold : (y :: ys).foldl max x = ys.foldl max (max x y) := rfl
    rw [hfold]
    rcases List.mem_cons.mp h with h1 | h1
    · rw [h1]
      rcases max_choice x y with h2 | h2
      · rw [h2]
        exact List.mem_cons_self _ _
      · rw [h2]
        exact List.mem_cons_of_mem _ (List.mem_cons_self _ _)
    · exact List.mem_cons_of_mem _ (List.mem_cons_of_mem _ h1)

theorem le_foldl_max {α : Type} [LinearOrder α] :
    ∀ (xs : List α) (x : α) (a : α), a ∈ x :: xs → a ≤ xs.foldl max x := by
  intro xs
  induction xs with
  | nil =>
    intro x a ha
    rcases List.mem_cons.mp ha with h | h
    · simp [h]
    · simp at h
  | cons y ys ih =>
    intro x a ha
    have step : ∀ b ∈ max x y :: ys, b ≤ ys.foldl max (max x y) := ih (max x y)
    rcases List.mem_cons.mp ha with h | h
    · subst h
      exact le_trans (le_max_left a y)
        (step _ (List.mem_cons_self _ _))
    · rcases List.mem_cons.mp h with h1 | h1
      · subst h1
        exact le_trans (le_max_right x a)
          (step _ (List.mem_cons_self _ _))
      · exact step _ (List.mem_cons_of_mem _ h1)

theorem np_max_mem {α : Type} [LinearOrder α] (dflt : α) {l : List α}
    (h : l ≠ []) : np_max dflt l ∈ l := by
  rcases l with _ | ⟨x, xs⟩
  · exact absurd rfl h
  · exact foldl_max_mem xs x

theorem le_np_max {α : Type} [LinearOrder α] (dflt : α) {l : List α} {a : α}
    (ha : a ∈ l) : a ≤ np_max dflt l := by
  rcases l with _ | ⟨x, xs⟩
  · simp at ha
  · exact le_foldl_max xs x a ha

/-! ### The per-injection grouping slice (lines 197-217) -/

theorem take_ssr_eq_filter {γ β : Type} [LinearOrder β] (k : γ → β) (i : β) :
    ∀ (ts : List γ), ts.Pairwise (fun a b => k a ≤ k b) →
    (∀ j ∈ ts, i ≤ k j) →
    ts.take (searchsorted_right (ts.map k) i) =
      ts.filter (fun j => decide (k j = i)) := by
  intro ts
  induction ts with
  | nil => intro _ _; rfl
  | cons x t ih =>
    intro hs hall
    rcases List.pairwise_cons.mp hs with ⟨hx, ht⟩
    by_cases hkx : k x ≤ i
    · have hEq : k x = i := le_antisymm hkx (hall x (List.mem_cons_self _ _))
      have hcount : searchsorted_right ((x :: t).map k) i =
          searchsorted_right (t.map k) i + 1 := by
        simp [searchsorted_right, List.countP_cons, hkx]
      rw [hcount]
      have hfil : List.filter (fun j => decide (k j = i)) (x :: t) =
          x :: List.filter (fun j => decide (k j = i)) t := by
        simp [List.filter_cons, hEq]
      rw [hfil, List.take_succ_cons]
      rw [ih ht (fun j hj => hall j (List.mem_cons_of_mem _ hj))]
    · have hlt : i < k x := lt_of_not_le hkx
      have h1 : List.countP (fun y => decide (y ≤ i)) (t.map k) = 0 := by
        rw [List.countP_eq_zero]
        intro y hy
        simp only [decide_eq_true_eq]
        obtain ⟨j, hj, rfl⟩ := List.mem_map.mp hy
        exact fun hyv => hkx (le_trans (hx j hj) hyv)
      have hcount : searchsorted_right ((x :: t).map k) i = 0 := by
        simp [searchsorted_right, List.countP_cons, h1, hkx]
      rw [hcount, List.take_zero]
      have hfil : List.filter (fun j => decide (k j = i)) (x :: t) = [] := by
        rw [List.filter_eq_nil_iff]
        intro j hj
        simp only [decide_eq_true_eq]
        rcases List.mem_cons.mp hj with rfl | hjt
        · exact fun hEq => absurd hEq (ne_of_gt hlt)
        · intro hEq
          exact absurd hEq (ne_of_gt (lt_of_lt_of_le hlt (hx j hjt)))
      rw [hfil]

theorem slice_eq_filter {γ β : Type} [LinearOrder β] (k : γ → β) (i : β) :
    ∀ (ts : List γ), ts.Pairwise (fun a b => k a ≤ k b) →
    (ts.drop (searchsorted_left (ts.map k) i)).take
      (searchsorted_right (ts.map k) i - searchsorted_left (ts.map k) i) =
    ts.filter (fun j => decide (k j = i)) := by
  intro ts
  induction ts with
  | nil => intro _; rfl
  | cons x t ih =>
    intro hs
    rcases List.pairwise_cons.mp hs with ⟨hx, ht⟩
    rcases lt_trichotomy (k x) i with hlt | hEq | hgt
    · have hL : searchsorted_left ((x :: t).map k) i =
          searchsorted_left (t.map k) i + 1 := by
        simp [searchsorted_left, List.countP_cons, hlt]
      have hR : searchsorted_right ((x :: t).map k) i =
          searchsorted_right (t.map k) i + 1 := by
        simp [searchsorted_right, List.countP_cons, le_of_lt hlt]
      have hfil : List.filter (fun j => decide (k j = i)) (x :: t) =
          List.filter (fun j => decide (k j = i)) t := by
        simp [List.filter_cons, ne_of_lt hlt]
      rw [hL, hR, hfil, List.drop_succ_cons]
      have harith : searchsorted_right (t.map k) i + 1 -
          (searchsorted_left (t.map k) i + 1) =
          searchsorted_right (t.map k) i - searchsorted_left (t.map k) i := by
        omega
      rw [harith]
      exact ih ht
    · have h0 : List.countP (fun y => decide (y < i)) (t.map k) = 0 := by
        rw [List.countP_eq_zero]
        intro y hy
        simp only [decide_eq_true_eq]
        obtain ⟨j, hj, rfl⟩ := List.mem_map.mp hy
        intro hyv
        exact absurd (lt_of_le_of_lt (hEq ▸ hx j hj) hyv) (lt_irrefl i)
      have hL : searchsorted_left ((x :: t).map k) i = 0 := by
        simp [searchsorted_left, List.countP_cons, h0, hEq]
      rw [hL, List.drop_zero, Nat.sub_zero]
      exact take_ssr_eq_filter k i (x :: t) hs
        (fun j hj => by
          rcases List.mem_cons.mp hj with rfl | hjt
          · exact le_of_eq hEq.symm
          · exact le_trans (le_of_eq hEq.symm) (hx j hjt))
    · have hR : searchsorted_right ((x :: t).map k) i = 0 := by
        have h1 : List.countP (fun y => decide (y ≤ i)) (t.map k) = 0 := by
          rw [List.countP_eq_zero]
          intro y hy
          simp only [decide_eq_true_eq]
          obtain ⟨j, hj, rfl⟩ := List.mem_map.mp hy
          exact fun hyv =>
            absurd (lt_of_lt_of_le hgt (le_trans (hx j hj) hyv)) (lt_irrefl i)
        simp [searchsorted_right, List.countP_cons, h1, not_le.mpr hgt]
      rw [hR, Nat.zero_sub, List.take_zero]
      have hfil : List.filter (fun j => decide (k j = i)) (x :: t) = [] := by
        rw [List.filter_eq_nil_iff]
        intro j hj
        simp only [decide_eq_true_eq]
        rcases List.mem_cons.mp hj with rfl | hjt
        · exact fun hEq => absurd hEq.symm (ne_of_lt hgt)
        · exact fun hEq =>
            absurd hEq.symm (ne_of_lt (lt_of_lt_of_le hgt (hx j hjt)))
      rw [hfil]

/-- The per-injection aggregation loop of `get_stats`
(evaluate.py lines 197-217): `tmpsidxs = idxs.argsort()`;
`sorted_idxs = idxs[tmpsidxs]`; for each injection `i`,
`L = np.searchsorted(sorted_idxs, i, side='left')` and, unless
`L >= len(idxs) or sorted_idxs[L] != i`, the slice `tmpsidxs[L:R]` (with `R`
the right insertion point) collects the event positions matched to `i`; the
`iidxs`/`eidxs` mask dance of lines 210-213 restricts that slice to its
true-positive members, and if any remain, `(i, max stat over them)` is
appended. -/
def found_injections_calc (numInj : ℕ) (idxs : List ℕ) (tpb : List Bool)
    (stats : List ℚ) : List (ℕ × ℚ) :=
  (List.range numInj).filterMap (fun i =>
    let ts := np_argsort 0 idxs
    let sorted_idxs := ts.map (fun j => idxs.getD j 0)
    let L := searchsorted_left sorted_idxs i
    if L < sorted_idxs.length ∧ sorted_idxs.getD L 0 = i then
      let R := searchsorted_right sorted_idxs i
      let group := (ts.drop L).take (R - L)
      let egroup := group.filter (fun j => tpb.getD j false)
      if egroup.isEmpty then none
      else some (i, np_max 0 (egroup.map (fun j => stats.getD j 0)))
    else none)

/-- Claim C3: the aggregation step produces a record for injection `i` iff at
least one foreground event matched to `i` is a true positive, and the
recorded statistic is the maximum statistic over exactly the true-positive
events matched to `i` (false positives never contribute). -/
theorem best_stat_aggregation (numInj : ℕ) (idxs : List ℕ) (tpb : List Bool)
    (stats : List ℚ) (i : ℕ) (hi : i < numInj) :
    ((∃ s, (i, s) ∈ found_injections_calc numInj idxs tpb stats) ↔
      (∃ j, j < idxs.length ∧ idxs.getD j 0 = i ∧ tpb.getD j false = true)) ∧
    (∀ s, (i, s) ∈ found_injections_calc numInj idxs tpb stats →
      (∃ j, j < idxs.length ∧ idxs.getD j 0 = i ∧ tpb.getD j false = true ∧
        stats.getD j 0 = s) ∧
      (∀ j, j < idxs.length → idxs.getD j 0 = i → tpb.getD j false = true →
        stats.getD j 0 ≤ s)) := by
  have hts_sorted : (np_argsort 0 idxs).Pairwise
      (fun a b => idxs.getD a 0 ≤ idxs.getD b 0) := np_argsort_sorted 0 idxs
  have hts_perm : (np_argsort 0 idxs).Perm (List.range idxs.length) :=
    np_argsort_perm 0 idxs
  have hmem_ts : ∀ j, j ∈ np_argsort 0 idxs ↔ j < idxs.length := by
    intro j
    rw [hts_perm.mem_iff, List.mem_range]
  have hsorted_map : ((np_argsort 0 idxs).map (fun j => idxs.getD j 0)).Pairwise
      (· ≤ ·) := List.pairwise_map.mpr hts_sorted
  -- the group slice selects exactly the event positions matched to `i`
  have hslice : ((np_argsort 0 idxs).drop
        (searchsorted_left ((np_argsort 0 idxs).map (fun j => idxs.getD j 0)) i)).take
        (searchsorted_right ((np_argsort 0 idxs).map (fun j => idxs.getD j 0)) i -
          searchsorted_left ((np_argsort 0 idxs).map (fun j => idxs.getD j 0)) i) =
      (np_argsort 0 idxs).filter (fun j => decide (idxs.getD j 0 = i)) :=
    slice_eq_filter (fun j => idxs.getD j 0) i (np_argsort 0 idxs) hts_sorted
  -- the branch guard holds iff some position is matched to `i`
  have hcond : (searchsorted_left ((np_argsort 0 idxs).map (fun j => idxs.getD j 0)) i <
        ((np_argsort 0 idxs).map (fun j => idxs.getD j 0)).length ∧
      ((np_argsort 0 idxs).map (fun j => idxs.getD j 0)).getD
        (searchsorted_left ((np_argsort 0 idxs).map (fun j => idxs.getD j 0)) i) 0 = i) ↔
      (∃ j, j < idxs.length ∧ idxs.getD j 0 = i) := by
    constructor
    · rintro ⟨hL, hgetD⟩
      rw [List.getD_eq_getElem _ 0 hL] at hgetD
      have hmem : i ∈ (np_argsort 0 idxs).map (fun j => idxs.getD j 0) :=
        hgetD ▸ List.getElem_mem hL
      obtain ⟨j, hj, hji⟩ := List.mem_map.mp hmem
      exact ⟨j, (hmem_ts j).mp hj, hji⟩
    · rintro ⟨j, hjlen, hji⟩
      have hjmem : j ∈ np_argsort 0 idxs := (hmem_ts j).mpr hjlen
      have himem : i ∈ (np_argsort 0 idxs).map (fun j => idxs.getD j 0) :=
        List.mem_map.mpr ⟨j, hjmem, hji⟩
      obtain ⟨m, hm, hmi⟩ := List.mem_iff_getElem.mp himem
      have hLm : searchsorted_left
          ((np_argsort 0 idxs).map (fun j => idxs.getD j 0)) i ≤ m := by
        by_contra hcon
        push_neg at hcon
        have := getD_lt_of_lt_ssl hsorted_map 0 hm hcon
        rw [List.getD_eq_getElem _ 0 hm, hmi] at this
        exact lt_irrefl i this
      have hLlen : searchsorted_left
          ((np_argsort 0 idxs).map (fun j => idxs.getD j 0)) i <
          ((np_argsort 0 idxs).map (fun j => idxs.getD j 0)).length := by omega
      refine ⟨hLlen, ?_⟩
      have hup : i ≤ ((np_argsort 0 idxs).map (fun j => idxs.getD j 0)).getD
          (searchsorted_left ((np_argsort 0 idxs).map (fun j => idxs.getD j 0)) i) 0 :=
        le_getD_of_ssl_le hsorted_map 0 hLlen (le_refl _)
      have hdown : ((np_argsort 0 idxs).map (fun j => idxs.getD j 0)).getD
          (searchsorted_left ((np_argsort 0 idxs).map (fun j => idxs.getD j 0)) i) 0 ≤
          ((np_argsort 0 idxs).map (fun j => idxs.getD j 0)).getD m 0 :=
        sorted_getD_mono hsorted_map 0 hLm hm
      rw [List.getD_eq_getElem _ 0 hm, hmi] at hdown
      omega
  -- membership in the true-positive group
  have hegroup_mem : ∀ j,
      (j ∈ ((np_argsort 0 idxs).filter (fun j => decide (idxs.getD j 0 = i))).filter
        (fun j => tpb.getD j false)) ↔
      (j < idxs.length ∧ idxs.getD j 0 = i ∧ tpb.getD j false = true) := by
    intro j
    rw [List.mem_filter, List.mem_filter]
    constructor
    · rintro ⟨⟨hjts, hdec⟩, htp⟩
      exact ⟨(hmem_ts j).mp hjts, by simpa using hdec, htp⟩
    · rintro ⟨hjlen, hji, htp⟩
      exact ⟨⟨(hmem_ts j).mpr hjlen, by simpa using hji⟩, htp⟩
  -- unfold membership in the `filterMap`
  have hmem_found : ∀ s, (i, s) ∈ found_injections_calc numInj idxs tpb stats ↔
      (∃ j, j < idxs.length ∧ idxs.getD j 0 = i ∧ tpb.getD j false = true) ∧
      s = np_max 0 ((((np_argsort 0 idxs).filter
          (fun j => decide (idxs.getD j 0 = i))).filter
          (fun j => tpb.getD j false)).map (fun j => stats.getD j 0)) := by
    intro s
    rw [found_injections_calc, List.mem_filterMap]
    constructor
    · rintro ⟨a, ha, hfa⟩
      simp only at hfa
      by_cases hc : searchsorted_left
            ((np_argsort 0 idxs).map (fun j => idxs.getD j 0)) a <
            ((np_argsort 0 idxs).map (fun j => idxs.getD j 0)).length ∧
          ((np_argsort 0 idxs).map (fun j => idxs.getD j 0)).getD
            (searchsorted_left ((np_argsort 0 idxs).map (fun j => idxs.getD j 0)) a) 0 = a
      · rw [if_pos hc] at hfa
        by_cases hemp : ((((np_argsort 0 idxs).drop
              (searchsorted_left ((np_argsort 0 idxs).map (fun j => idxs.getD j 0)) a)).take
              (searchsorted_right ((np_argsort 0 idxs).map (fun j => idxs.getD j 0)) a -
                searchsorted_left ((np_argsort 0 idxs).map (fun j => idxs.getD j 0)) a)).filter
              (fun j => tpb.getD j false)).isEmpty
        · rw [if_pos hemp] at hfa
          cases hfa
        · rw [if_neg hemp] at hfa
          have hai : a = i := congrArg Prod.fst (Option.some_injective _ hfa)
          subst hai
          have hsval : s = np_max 0 (((((np_argsort 0 idxs).drop
              (searchsorted_left ((np_argsort 0 idxs).map (fun j => idxs.getD j 0)) a)).take
              (searchsorted_right ((np_argsort 0 idxs).map (fun j => idxs.getD j 0)) a -
                searchsorted_left ((np_argsort 0 idxs).map (fun j => idxs.getD j 0)) a)).filter
              (fun j => tpb.getD j false)).map (fun j => stats.getD j 0)) :=
            (congrArg Prod.snd (Option.some_injective _ hfa)).symm
          rw [hslice] at hsval hemp
          refine ⟨?_, hsval⟩
          rw [List.isEmpty_iff] at hemp
          rcases List.exists_mem_of_ne_nil _ hemp with ⟨j, hj⟩
          exact ⟨j, (hegroup_mem j).mp hj⟩
      · rw [if_neg hc] at hfa
        cases hfa
    · rintro ⟨⟨j, hjlen, hji, htp⟩, hs⟩
      refine ⟨i, List.mem_range.mpr hi, ?_⟩
      simp only
      rw [if_pos (hcond.mpr ⟨j, hjlen, hji⟩)]
      have hnonempty : ¬ ((((np_argsort 0 idxs).drop
            (searchsorted_left ((np_argsort 0 idxs).map (fun j => idxs.getD j 0)) i)).take
            (searchsorted_right ((np_argsort 0 idxs).map (fun j => idxs.getD j 0)) i -
              searchsorted_left ((np_argsort 0 idxs).map (fun j => idxs.getD j 0)) i)).filter
            (fun j => tpb.getD j false)).isEmpty := by
        rw [hslice, List.isEmpty_iff]
        intro hnil
        have := (hegroup_mem j).mpr ⟨hjlen, hji, htp⟩
        rw [hnil] at this
        simp at this
      rw [if_neg hnonempty, hslice]
      rw [hs]
  constructor
  · constructor
    · rintro ⟨s, hsmem⟩
      exact ((hmem_found s).mp hsmem).1
    · rintro ⟨j, hjlen, hji, htp⟩
      exact ⟨_, (hmem_found _).mpr ⟨⟨j, hjlen, hji, htp⟩, rfl⟩⟩
  · intro s hsmem
    obtain ⟨⟨j0, hj0len, hj0i, hj0tp⟩, hs⟩ := (hmem_found s).mp hsmem
    constructor
    · have hmem0 : stats.getD j0 0 ∈ ((((np_argsort 0 idxs).filter
          (fun j => decide (idxs.getD j 0 = i))).filter
          (fun j => tpb.getD j false)).map (fun j => stats.getD j 0)) :=
        List.mem_map.mpr ⟨j0, (hegroup_mem j0).mpr ⟨hj0len, hj0i, hj0tp⟩, rfl⟩
      have hmax_mem := np_max_mem 0 (List.ne_nil_of_mem hmem0)
      rw [← hs] at hmax_mem
      obtain ⟨j, hj, hjval⟩ := List.mem_map.mp hmax_mem
      obtain ⟨hjlen, hji, htp⟩ := (hegroup_mem j).mp hj
      exact ⟨j, hjlen, hji, htp, hjval⟩
    · intro j hjlen hji htp
      have hmemj : stats.getD j 0 ∈ ((((np_argsort 0 idxs).filter
          (fun j => decide (idxs.getD j 0 = i))).filter
          (fun j => tpb.getD j false)).map (fun j => stats.getD j 0)) :=
        List.mem_map.mpr ⟨j, (hegroup_mem j).mpr ⟨hjlen, hji, htp⟩, rfl⟩
      rw [hs]
      exact le_np_max 0 hmemj

/-- Witness for C3 at a concrete input: two events matched to injection `0`,
the true positive among them has statistic `7`. -/
theorem best_stat_aggregation_witness :
    0 < 1 ∧
    ((∃ s, (0, s) ∈ found_injections_calc 1 [0, 0] [true, false] [7, 9]) ↔
      (∃ j, j < 2 ∧ ([0, 0] : List ℕ).getD j 0 = 0 ∧
        ([true, false] : List Bool).getD j false = true)) :=
  ⟨by decide,
    (best_stat_aggregation 1 [0, 0] [true, false] [7, 9] 0 (by decide)).1⟩

/-! ### Sensitivity estimator (evaluate.py lines 100-101 and 221-270) -/

/-- Lines 100-101: `mchirp(mass1, mass2)`. -/
noncomputable def mchirp (mass1 mass2 : ℝ) : ℝ :=
  (mass1 * mass2) ^ ((3 : ℝ) / 5) / (mass1 + mass2) ^ ((1 : ℝ) / 5)

/-- NumPy's broadcasting rule for a binary elementwise operation on two 1-D
arrays: equal lengths operate pairwise, a length-one array is stretched,
anything else raises (the error branch is detected by the caller through
`broadcastable`, so the `[]` result is dead code). -/
noncomputable def np_broadcast2 (f : ℝ → ℝ → ℝ) (a b : List ℚ) : List ℝ :=
  if a.length = b.length then
    List.zipWith (fun (x y : ℚ) => f (x : ℝ) (y : ℝ)) a b
  else if a.length = 1 then
    b.map (fun (y : ℚ) => f ((a.headD 0 : ℚ) : ℝ) (y : ℝ))
  else if b.length = 1 then
    a.map (fun (x : ℚ) => f (x : ℝ) ((b.headD 0 : ℚ) : ℝ))
  else []

/-- Whether two 1-D shapes can broadcast together. -/
def broadcastable (m n : ℕ) : Bool :=
  decide (m = n) || decide (m = 1) || decide (n = 1)

/-- Line 148: `massc = mchirp(injparams['mass1'], injparams['mass2'])`. -/
noncomputable def massc_of (mass1 mass2 : List ℚ) : List ℝ :=
  np_broadcast2 mchirp mass1 mass2

/-- Lines 224-225: `sidxs = found_injections[1].argsort();
found_injections = found_injections.T[sidxs].T`. -/
def found_sorted (found : List (ℕ × ℚ)) : List (ℕ × ℚ) :=
  (np_argsort 0 (found.map Prod.snd)).map (fun j => found.getD j (0, 0))

/-- The statistic row `found_injections[1]` of the sorted found injections. -/
def found_stats (found : List (ℕ × ℚ)) : List ℚ :=
  (found_sorted found).map Prod.snd

/-- Line 227: `found_mchirp_total = massc[found_injections[0].astype(int)]`
(applied to the statistic-sorted found injections). -/
noncomputable def found_mchirp_total (found : List (ℕ × ℚ)) (massc : List ℝ) :
    List ℝ :=
  (found_sorted found).map (fun p => massc.getD p.1 0)

/-- Lines 250-251 / 255-256: the lookup table
`np.concatenate([np.flip(np.cumsum(np.flip(vals))), np.zeros(1)])` whose entry
at a right-insertion index is the corresponding suffix sum. -/
noncomputable def rev_cumsum_table (vals : List ℝ) : List ℝ :=
  (cumsum vals.reverse).reverse ++ [0]

/-- Lines 238-240: `nfound = len(found_injections[1]) -
np.searchsorted(found_injections[1], noise_stats, side='right')`. -/
def nfound_list (found : List (ℕ × ℚ)) (noise_stats : List ℚ) : List ℕ :=
  noise_stats.map (fun t =>
    (found_stats found).length - searchsorted_right (found_stats found) t)

/-- Lines 243-252: `mc_sum = cumsum[fidxs]` with
`fidxs = np.searchsorted(found_injections[1], noise_stats, side='right')` and
`cumsum` the flipped cumulative sum of `found_mchirp_total ** (5/2)`. -/
noncomputable def mc_sum_list (found : List (ℕ × ℚ)) (massc : List ℝ)
    (noise_stats : List ℚ) : List ℝ :=
  noise_stats.map (fun t =>
    (rev_cumsum_table ((found_mchirp_total found massc).map
      (fun x => x ^ ((5 : ℝ) / 2)))).getD
      (searchsorted_right (found_stats found) t) 0)

/-- Lines 255-257: `sample_variance_prefactor = cumsumsq[fidxs]` with
`cumsumsq` built from `found_mchirp_total ** 5`. -/
noncomputable def svp_list (found : List (ℕ × ℚ)) (massc : List ℝ)
    (noise_stats : List ℚ) : List ℝ :=
  noise_stats.map (fun t =>
    (rev_cumsum_table ((found_mchirp_total found massc).map
      (fun x => x ^ (5 : ℕ)))).getD
      (searchsorted_right (found_stats found) t) 0)

/-- Line 253: `Ninj = np.sum((mchirp_max / massc) ** (5. / 2.))` (the
chirp-weighted effective injection count). -/
noncomputable def Ninj_chirp (massc : List ℝ) : ℝ :=
  (massc.map (fun m => (np_max 0 massc / m) ^ ((5 : ℝ) / 2))).sum

/-- Lines 229-230: `max_distance = dist.max();
vtot = (4/3) * np.pi * max_distance**3`. -/
noncomputable def vtot (dist : List ℚ) : ℝ :=
  (4 : ℝ) / 3 * Real.pi * ((np_max 0 dist : ℚ) : ℝ) ^ (3 : ℕ)

/-- Lines 231-235: `mc_norm = mchirp_max ** (5/2) * len(massc)` in chirp mode,
`Ninj = len(dist)` otherwise. -/
noncomputable def mc_norm (chirp : Bool) (massc : List ℝ) (dist : List ℚ) : ℝ :=
  if chirp then (np_max 0 massc) ^ ((5 : ℝ) / 2) * (massc.length : ℝ)
  else (dist.length : ℝ)

/-- Line 236: `prefactor = vtot / mc_norm`. -/
noncomputable def prefactor (chirp : Bool) (massc : List ℝ) (dist : List ℚ) : ℝ :=
  vtot dist / mc_norm chirp massc dist

/-- Lines 252 / 261: `mc_sum` is the chirp-weighted suffix sum in chirp mode
and plain `nfound` otherwise. -/
noncomputable def mc_sum_both (chirp : Bool) (found : List (ℕ × ℚ))
    (massc : List ℝ) (noise_stats : List ℚ) : List ℝ :=
  if chirp then mc_sum_list found massc noise_stats
  else (nfound_list found noise_stats).map (fun (n : ℕ) => (n : ℝ))

/-- The effective `Ninj` in force after lines 231/253. -/
noncomputable def Ninj_final (chirp : Bool) (massc : List ℝ) (dist : List ℚ) : ℝ :=
  if chirp then Ninj_chirp massc else (dist.length : ℝ)

/-- Lines 258-262: the per-threshold sample variance. -/
noncomputable def sample_variance_list (chirp : Bool) (found : List (ℕ × ℚ))
    (massc : List ℝ) (dist : List ℚ) (noise_stats : List ℚ) : List ℝ :=
  if chirp then
    List.zipWith (fun (svp ms : ℝ) =>
      svp / Ninj_chirp massc - (ms / Ninj_chirp massc) ^ 2)
      (svp_list found massc noise_stats) (mc_sum_list found massc noise_stats)
  else
    (nfound_list found noise_stats).map (fun (nf : ℕ) =>
      (nf : ℝ) / (dist.length : ℝ) - ((nf : ℝ) / (dist.length : ℝ)) ^ 2)

/-- The quantity `Ninj * sample_variance` under the square root of line 264. -/
noncomputable def radicand_list (chirp : Bool) (found : List (ℕ × ℚ))
    (massc : List ℝ) (dist : List ℚ) (noise_stats : List ℚ) : List ℝ :=
  (sample_variance_list chirp found massc dist noise_stats).map
    (fun sv => Ninj_final chirp massc dist * sv)

/-- Line 263: `vol = prefactor * mc_sum`. -/
noncomputable def vol_list (chirp : Bool) (found : List (ℕ × ℚ))
    (massc : List ℝ) (dist : List ℚ) (noise_stats : List ℚ) : List ℝ :=
  (mc_sum_both chirp found massc noise_stats).map
    (fun m => prefactor chirp massc dist * m)

/-- Line 264: `vol_err = prefactor * (Ninj * sample_variance) ** 0.5`. -/
noncomputable def vol_err_list (chirp : Bool) (found : List (ℕ × ℚ))
    (massc : List ℝ) (dist : List ℚ) (noise_stats : List ℚ) : List ℝ :=
  (radicand_list chirp found massc dist noise_stats).map
    (fun r => prefactor chirp massc dist * r ^ ((1 : ℝ) / 2))

/-- Line 265: `rad = (3 * vol / (4 * np.pi)) ** (1/3)`. -/
noncomputable def sens_dist_list (chirp : Bool) (found : List (ℕ × ℚ))
    (massc : List ℝ) (dist : List ℚ) (noise_stats : List ℚ) : List ℝ :=
  (vol_list chirp found massc dist noise_stats).map
    (fun v => (3 * v / (4 * Real.pi)) ^ ((1 : ℝ) / 3))

/-- Line 270: `ret['sensitive-fraction'] = nfound / Ninj` (with `Ninj` the
effective count left in scope, i.e. the chirp-weighted one in chirp mode). -/
noncomputable def sens_frac_list (chirp : Bool) (found : List (ℕ × ℚ))
    (massc : List ℝ) (dist : List ℚ) (noise_stats : List ℚ) : List ℝ :=
  (nfound_list found noise_stats).map
    (fun (nf : ℕ) => (nf : ℝ) / Ninj_final chirp massc dist)

/-! ### Structure lemmas for the sensitivity arrays -/

theorem np_argsort_length {α : Type} [LinearOrder α] (dflt : α)
    (keys : List α) : (np_argsort dflt keys).length = keys.length := by
  rw [np_argsort, List.length_insertionSort, List.length_range]

theorem found_sorted_length (found : List (ℕ × ℚ)) :
    (found_sorted found).length = found.length := by
  rw [found_sorted, List.length_map, np_argsort_length, List.length_map]

theorem getD_map_general {α β : Type} (f : α → β) (l : List α) (d : α)
    (j : ℕ) : (l.map f).getD j (f d) = f (l.getD j d) := by
  rcases lt_or_le j l.length with h | h
  · rw [List.getD_eq_getElem _ _ (by simpa using h), List.getD_eq_getElem _ _ h,
      List.getElem_map]
  · rw [List.getD_eq_default _ _ (by simpa using h), List.getD_eq_default _ _ h]

theorem found_sorted_pairwise (found : List (ℕ × ℚ)) :
    (found_sorted found).Pairwise (fun a b => a.2 ≤ b.2) := by
  rw [found_sorted, List.pairwise_map]
  have h := np_argsort_sorted 0 (found.map Prod.snd)
  refine h.imp ?_
  intro a b hab
  have ha := getD_map_general Prod.snd found (0, 0) a
  have hb := getD_map_general Prod.snd found (0, 0) b
  rw [ha, hb] at hab
  exact hab

theorem map_getD_range {α : Type} (l : List α) (d : α) :
    (List.range l.length).map (fun j => l.getD j d) = l := by
  apply List.ext_getElem
  · rw [List.length_map, List.length_range]
  · intro i h1 h2
    rw [List.getElem_map, List.getElem_range]
    rw [List.getD_eq_getElem _ _ h2]

theorem found_sorted_perm (found : List (ℕ × ℚ)) :
    (found_sorted found).Perm found := by
  rw [found_sorted]
  have hp : (np_argsort 0 (found.map Prod.snd)).Perm
      (List.range found.length) := by
    have := np_argsort_perm 0 (found.map Prod.snd)
    rwa [List.length_map] at this
  have := hp.map (fun j => found.getD j (0, 0))
  rwa [map_getD_range found (0, 0)] at this

theorem found_stats_length (found : List (ℕ × ℚ)) :
    (found_stats found).length = found.length := by
  rw [found_stats, List.length_map, found_sorted_length]

theorem cumsum_length (l : List ℝ) : (cumsum l).length = l.length := by
  induction l with
  | nil => rfl
  | cons x xs ih => simp [cumsum, ih]

theorem cumsum_append_singleton (l : List ℝ) (x : ℝ) :
    cumsum (l ++ [x]) = cumsum l ++ [l.sum + x] := by
  induction l with
  | nil => simp [cumsum]
  | cons y ys ih =>
    rw [List.cons_append, cumsum, ih, cumsum]
    simp [List.map_append, add_assoc]

theorem rev_cumsum_table_cons (x : ℝ) (xs : List ℝ) :
    rev_cumsum_table (x :: xs) = (x + xs.sum) :: rev_cumsum_table xs := by
  rw [rev_cumsum_table, rev_cumsum_table, List.reverse_cons,
    cumsum_append_singleton, List.reverse_append]
  simp [List.sum_reverse, add_comm]

/-- The suffix-sum property of the flipped-cumsum lookup table. -/
theorem rev_cumsum_table_getD (l : List ℝ) :
    ∀ j, j ≤ l.length → (rev_cumsum_table l).getD j 0 = (l.drop j).sum := by
  induction l with
  | nil =>
    intro j hj
    have hj0 : j = 0 := by simpa using hj
    subst hj0
    rfl
  | cons x xs ih =>
    intro j hj
    rw [rev_cumsum_table_cons]
    cases j with
    | zero => simp
    | succ j =>
      have : ((x + xs.sum) :: rev_cumsum_table xs).getD (j + 1) 0 =
          (rev_cumsum_table xs).getD j 0 := rfl
      rw [this, ih j (by simpa using hj)]
      rfl

/-- Dropping the right-insertion count from a statistic-sorted list of pairs
leaves exactly the pairs whose statistic strictly exceeds the threshold. -/
theorem drop_ssr_map_sum (g : ℕ × ℚ → ℝ) (t : ℚ) :
    ∀ (ps : List (ℕ × ℚ)), ps.Pairwise (fun a b => a.2 ≤ b.2) →
    ((ps.map g).drop (searchsorted_right (ps.map Prod.snd) t)).sum =
      ((ps.filter (fun p => decide (t < p.2))).map g).sum := by
  intro ps
  induction ps with
  | nil => intro _; rfl
  | cons p rest ih =>
    intro hs
    rcases List.pairwise_cons.mp hs with ⟨hp, hrest⟩
    by_cases hpt : p.2 ≤ t
    · have hcount : searchsorted_right ((p :: rest).map Prod.snd) t =
          searchsorted_right (rest.map Prod.snd) t + 1 := by
        simp [searchsorted_right, List.countP_cons, hpt]
      rw [hcount]
      have hdrop : ((p :: rest).map g).drop
          (searchsorted_right (rest.map Prod.snd) t + 1) =
          (rest.map g).drop (searchsorted_right (rest.map Prod.snd) t) := rfl
      rw [hdrop, ih hrest]
      have hfil : (p :: rest).filter (fun q => decide (t < q.2)) =
          rest.filter (fun q => decide (t < q.2)) := by
        simp [List.filter_cons, not_lt.mpr hpt]
      rw [hfil]
    · have htp : t < p.2 := lt_of_not_le hpt
      have h0 : List.countP (fun y => decide (y ≤ t)) (rest.map Prod.snd) = 0 := by
        rw [List.countP_eq_zero]
        intro y hy
        simp only [decide_eq_true_eq]
        obtain ⟨q, hq, rfl⟩ := List.mem_map.mp hy
        exact fun hyt => hpt (le_trans (hp q hq) hyt)
      have hcount : searchsorted_right ((p :: rest).map Prod.snd) t = 0 := by
        simp [searchsorted_right, List.countP_cons, h0, hpt]
      rw [hcount, List.drop_zero]
      have hfil : (p :: rest).filter (fun q => decide (t < q.2)) =
          p :: rest.filter (fun q => decide (t < q.2)) := by
        simp [List.filter_cons, htp]
      rw [hfil]
      have hrest_self : rest.filter (fun q => decide (t < q.2)) = rest := by
        rw [List.filter_eq_self]
        intro q hq
        simp only [decide_eq_true_eq]
        exact lt_of_lt_of_le htp (hp q hq)
      rw [hrest_self]

/-- The flipped-cumsum lookup at a right-insertion index computes the sum of
`g` over exactly the found injections whose statistic strictly exceeds the
threshold. -/
theorem mc_table_entry (found : List (ℕ × ℚ)) (g : ℕ × ℚ → ℝ) (t : ℚ) :
    (rev_cumsum_table ((found_sorted found).map g)).getD
      (searchsorted_right (found_stats found) t) 0 =
    ((found.filter (fun p => decide (t < p.2))).map g).sum := by
  have hk : searchsorted_right (found_stats found) t ≤
      ((found_sorted found).map g).length := by
    rw [List.length_map]
    have h1 := searchsorted_right_le_length (found_stats found) t
    rw [found_stats_length] at h1
    rw [found_sorted_length]
    exact h1
  rw [rev_cumsum_table_getD _ _ hk]
  have hstats : found_stats found = (found_sorted found).map Prod.snd := rfl
  rw [hstats, drop_ssr_map_sum g t (found_sorted found) (found_sorted_pairwise found)]
  exact List.Perm.sum_eq (((found_sorted_perm found).filter _).map g)

/-- Claim C2: in chirp-mass-weighted mode, `mc_sum(t)` for every threshold
`t` drawn from the (sorted) background statistics is the sum of
`massc[i] ^ (5/2)` over exactly the found injections whose best statistic is
strictly greater than `t`, and the sensitive volume is
`(4/3)·π·D_max³ / (μ_max^(5/2) · M)` times that sum, with `μ_max` the maximum
chirp mass, `D_max` the maximum injection distance and `M` the number of
contained injections. -/
theorem sensitive_volume_chirp_spec (found : List (ℕ × ℚ)) (massc : List ℝ)
    (dist : List ℚ) (noise_stats : List ℚ) :
    mc_sum_list found massc noise_stats =
      noise_stats.map (fun t =>
        ((found.filter (fun p => decide (t < p.2))).map
          (fun p => (massc.getD p.1 0) ^ ((5 : ℝ) / 2))).sum) ∧
    vol_list true found massc dist noise_stats =
      noise_stats.map (fun t =>
        ((4 : ℝ) / 3 * Real.pi * ((np_max 0 dist : ℚ) : ℝ) ^ (3 : ℕ) /
          ((np_max 0 massc) ^ ((5 : ℝ) / 2) * (massc.length : ℝ))) *
        ((found.filter (fun p => decide (t < p.2))).map
          (fun p => (massc.getD p.1 0) ^ ((5 : ℝ) / 2))).sum) := by
  have hmc : mc_sum_list found massc noise_stats =
      noise_stats.map (fun t =>
        ((found.filter (fun p => decide (t < p.2))).map
          (fun p => (massc.getD p.1 0) ^ ((5 : ℝ) / 2))).sum) := by
    rw [mc_sum_list]
    apply List.map_congr_left
    intro t ht
    have hmm : (found_mchirp_total found massc).map (fun x => x ^ ((5 : ℝ) / 2)) =
        (found_sorted found).map (fun p => (massc.getD p.1 0) ^ ((5 : ℝ) / 2)) := by
      rw [found_mchirp_total, List.map_map]
      rfl
    rw [hmm, mc_table_entry]
  refine ⟨hmc, ?_⟩
  rw [vol_list]
  have hboth : mc_sum_both true found massc noise_stats =
      mc_sum_list found massc noise_stats := by
    rw [mc_sum_both, if_pos rfl]
  rw [hboth, hmc, List.map_map]
  apply List.map_congr_left
  intro t ht
  have hpref : prefactor true massc dist =
      (4 : ℝ) / 3 * Real.pi * ((np_max 0 dist : ℚ) : ℝ) ^ (3 : ℕ) /
        ((np_max 0 massc) ^ ((5 : ℝ) / 2) * (massc.length : ℝ)) := by
    rw [prefactor, mc_norm, if_pos rfl, vtot]
  simp only [Function.comp]
  rw [hpref]

/-! ### Nonnegativity of the volume-error radicand (C8) -/

theorem sum_sq_nonneg_list (l : List ℝ) : 0 ≤ (l.map (fun x => x ^ 2)).sum := by
  apply List.sum_nonneg
  intro a ha
  obtain ⟨x, hx, rfl⟩ := List.mem_map.mp ha
  exact sq_nonneg x

/-- Cauchy-Schwarz for plain list sums: `(Σ l)² ≤ |l| · Σ l²`. -/
theorem sq_sum_le_length_mul_sum_sq (l : List ℝ) :
    (l.sum) ^ 2 ≤ (l.length : ℝ) * (l.map (fun x => x ^ 2)).sum := by
  induction l with
  | nil => simp
  | cons x xs ih =>
    rcases xs with _ | ⟨y, ys⟩
    · simp
    · have hQ : 0 ≤ ((y :: ys).map (fun x => x ^ 2)).sum :=
        sum_sq_nonneg_list (y :: ys)
      have hn : (1 : ℝ) ≤ ((y :: ys).length : ℝ) := by
        have h1 : 1 ≤ (y :: ys).length := by simp
        exact_mod_cast h1
      have hsum : (x :: y :: ys).sum = x + (y :: ys).sum := List.sum_cons
      have hmap : ((x :: y :: ys).map (fun x => x ^ 2)).sum =
          x ^ 2 + ((y :: ys).map (fun x => x ^ 2)).sum := by
        rw [List.map_cons, List.sum_cons]
      have hlen : ((x :: y :: ys).length : ℝ) = ((y :: ys).length : ℝ) + 1 := by
        rw [List.length_cons]
        push_cast
        ring
      rw [hsum, hmap, hlen]
      have key : 0 ≤ (((y :: ys).length : ℝ) * x - (y :: ys).sum) ^ 2 +
          (((y :: ys).length : ℝ) + 1) *
            (((y :: ys).length : ℝ) * ((y :: ys).map (fun x => x ^ 2)).sum -
              ((y :: ys).sum) ^ 2) :=
        add_nonneg (sq_nonneg _)
          (mul_nonneg (by linarith) (by linarith [ih]))
      have expand : ((y :: ys).length : ℝ) *
          ((((y :: ys).length : ℝ) + 1) *
            (x ^ 2 + ((y :: ys).map (fun x => x ^ 2)).sum) -
            (x + (y :: ys).sum) ^ 2) =
          (((y :: ys).length : ℝ) * x - (y :: ys).sum) ^ 2 +
          (((y :: ys).length : ℝ) + 1) *
            (((y :: ys).length : ℝ) * ((y :: ys).map (fun x => x ^ 2)).sum -
              ((y :: ys).sum) ^ 2) := by ring
      nlinarith [key, expand, hn]

theorem rpow_five_half_sq {x : ℝ} (hx : 0 ≤ x) :
    (x ^ ((5 : ℝ) / 2)) ^ (2 : ℕ) = x ^ (5 : ℕ) := by
  rw [← Real.rpow_natCast (x ^ ((5 : ℝ) / 2)) 2, ← Real.rpow_mul hx]
  rw [show (5 : ℝ) / 2 * ((2 : ℕ) : ℝ) = ((5 : ℕ) : ℝ) by norm_num]
  rw [Real.rpow_natCast]

/-- Core estimate: for nonnegative weights, the second moment dominates the
squared first moment scaled by any `N` at least the sample size. -/
theorem radicand_core_nonneg (m2 : List ℝ) (hm2 : ∀ x ∈ m2, 0 ≤ x) (N : ℝ)
    (hN : (m2.length : ℝ) ≤ N) (hNpos : 0 < N) :
    0 ≤ (m2.map (fun x => x ^ (5 : ℕ))).sum -
      ((m2.map (fun x => x ^ ((5 : ℝ) / 2))).sum) ^ 2 / N := by
  have hmapsq : ((m2.map (fun x => x ^ ((5 : ℝ) / 2))).map (fun x => x ^ 2)).sum =
      (m2.map (fun x => x ^ (5 : ℕ))).sum := by
    rw [List.map_map]
    apply congrArg
    apply List.map_congr_left
    intro x hx
    simp only [Function.comp]
    exact rpow_five_half_sq (hm2 x hx)
  have hCS := sq_sum_le_length_mul_sum_sq (m2.map (fun x => x ^ ((5 : ℝ) / 2)))
  rw [hmapsq, List.length_map] at hCS
  have hQnn : 0 ≤ (m2.map (fun x => x ^ (5 : ℕ))).sum := by
    apply List.sum_nonneg
    intro a ha
    obtain ⟨x, hx, rfl⟩ := List.mem_map.mp ha
    exact pow_nonneg (hm2 x hx) 5
  have hfinal : ((m2.map (fun x => x ^ ((5 : ℝ) / 2))).sum) ^ 2 ≤
      (m2.map (fun x => x ^ (5 : ℕ))).sum * N := by
    calc ((m2.map (fun x => x ^ ((5 : ℝ) / 2))).sum) ^ 2 ≤
        (m2.length : ℝ) * (m2.map (fun x => x ^ (5 : ℕ))).sum := hCS
      _ ≤ N * (m2.map (fun x => x ^ (5 : ℕ))).sum :=
        mul_le_mul_of_nonneg_right hN hQnn
      _ = (m2.map (fun x => x ^ (5 : ℕ))).sum * N := mul_comm _ _
  rw [sub_nonneg, div_le_iff₀ hNpos]
  exact hfinal

theorem zipWith_map_same {α β γ δ : Type} (f : α → β → γ) (g : δ → α)
    (h : δ → β) (l : List δ) :
    List.zipWith f (l.map g) (l.map h) = l.map (fun x => f (g x) (h x)) := by
  induction l with
  | nil => rfl
  | cons y ys ih => simp [ih]

theorem length_le_sum_of_one_le :
    ∀ (l : List ℝ), (∀ x ∈ l, 1 ≤ x) → (l.length : ℝ) ≤ l.sum := by
  intro l
  induction l with
  | nil => simp
  | cons x xs ih =>
    intro h
    have h1 := h x (List.mem_cons_self _ _)
    have h2 := ih (fun y hy => h y (List.mem_cons_of_mem _ hy))
    rw [List.sum_cons, List.length_cons]
    push_cast
    linarith

theorem getD_nonneg_of_pos {massc : List ℝ} (h : ∀ m ∈ massc, 0 < m) (i : ℕ) :
    0 ≤ massc.getD i 0 := by
  rcases lt_or_le i massc.length with hi | hi
  · rw [List.getD_eq_getElem _ _ hi]
    exact le_of_lt (h _ (List.getElem_mem hi))
  · rw [List.getD_eq_default _ _ hi]

theorem length_le_Ninj_chirp {massc : List ℝ} (_hne : massc ≠ [])
    (hpos : ∀ m ∈ massc, 0 < m) : (massc.length : ℝ) ≤ Ninj_chirp massc := by
  rw [Ninj_chirp]
  have hlen : ((massc.map
      (fun m => (np_max 0 massc / m) ^ ((5 : ℝ) / 2))).length : ℝ) =
      (massc.length : ℝ) := by rw [List.length_map]
  rw [← hlen]
  apply length_le_sum_of_one_le
  intro x hx
  obtain ⟨m, hm, rfl⟩ := List.mem_map.mp hx
  have hmpos : 0 < m := hpos m hm
  have hle : m ≤ np_max 0 massc := le_np_max 0 hm
  have hdiv : 1 ≤ np_max 0 massc / m := (one_le_div hmpos).mpr hle
  exact Real.one_le_rpow hdiv (by norm_num)

theorem Ninj_chirp_pos {massc : List ℝ} (hne : massc ≠ [])
    (hpos : ∀ m ∈ massc, 0 < m) : 0 < Ninj_chirp massc := by
  have h1 := length_le_Ninj_chirp hne hpos
  have h2 : 1 ≤ massc.length := List.length_pos.mpr hne
  have h3 : (1 : ℝ) ≤ (massc.length : ℝ) := by exact_mod_cast h2
  linarith

theorem prefactor_nonneg (chirp : Bool) (massc : List ℝ) (dist : List ℚ)
    (hdne : dist ≠ []) (hdpos : ∀ d ∈ dist, 0 < d)
    (hchirp : chirp = true → massc ≠ [] ∧ (∀ m ∈ massc, 0 < m)) :
    0 ≤ prefactor chirp massc dist := by
  have hD : (0 : ℚ) < np_max 0 dist := hdpos _ (np_max_mem 0 hdne)
  have hDR : (0 : ℝ) ≤ ((np_max 0 dist : ℚ) : ℝ) := by
    exact_mod_cast le_of_lt hD
  have hvtot : 0 ≤ vtot dist := by
    rw [vtot]
    positivity
  rw [prefactor]
  cases chirp with
  | false =>
    apply div_nonneg hvtot
    rw [mc_norm]
    simp only [Bool.false_eq_true, if_false]
    positivity
  | true =>
    obtain ⟨hmne, hmpos⟩ := hchirp rfl
    apply div_nonneg hvtot
    rw [mc_norm, if_pos rfl]
    have hmax : 0 < np_max 0 massc := hmpos _ (np_max_mem 0 hmne)
    have h1 : 0 < (np_max 0 massc) ^ ((5 : ℝ) / 2) :=
      Real.rpow_pos_of_pos hmax _
    have h2 : (0 : ℝ) ≤ (massc.length : ℝ) := by positivity
    exact le_of_lt (mul_pos h1 (by
      have : 1 ≤ massc.length := List.length_pos.mpr hmne
      exact_mod_cast lt_of_lt_of_le zero_lt_one (by exact_mod_cast this)))

/-- Claim C8: in both modes, the quantity under the square root of the
volume-error computation (`Ninj * sample_variance`, the sample variance being
the second moment minus the squared first moment) is non-negative for every
threshold, and consequently `volume_error` is a real, non-negative number,
given at least one contained injection with positive masses and distances. -/
theorem volume_error_nonneg (chirp : Bool) (found : List (ℕ × ℚ))
    (massc : List ℝ) (dist : List ℚ) (noise_stats : List ℚ)
    (hdne : dist ≠ []) (hdpos : ∀ d ∈ dist, 0 < d)
    (hchirp : chirp = true →
      massc ≠ [] ∧ (∀ m ∈ massc, 0 < m) ∧ found.length ≤ massc.length)
    (huni : chirp = false → found.length ≤ dist.length) :
    (∀ r ∈ radicand_list chirp found massc dist noise_stats, 0 ≤ r) ∧
    (∀ e ∈ vol_err_list chirp found massc dist noise_stats, 0 ≤ e) := by
  have hrad : ∀ r ∈ radicand_list chirp found massc dist noise_stats, 0 ≤ r := by
    intro r hr
    rw [radicand_list] at hr
    obtain ⟨sv, hsv, rfl⟩ := List.mem_map.mp hr
    cases chirp with
    | false =>
      rw [sample_variance_list] at hsv
      simp only [Bool.false_eq_true, if_false] at hsv
      obtain ⟨nf, hnf, rfl⟩ := List.mem_map.mp hsv
      rw [Ninj_final]
      simp only [Bool.false_eq_true, if_false]
      obtain ⟨t, ht, rfl⟩ := List.mem_map.mp hnf
      have hN0 : (0 : ℝ) < (dist.length : ℝ) := by
        have h1 : 1 ≤ dist.length := List.length_pos.mpr hdne
        exact_mod_cast lt_of_lt_of_le zero_lt_one (by exact_mod_cast h1)
      have hx0 : (0 : ℝ) ≤
          (((found_stats found).length - searchsorted_right (found_stats found) t : ℕ) : ℝ) := by
        positivity
      have hxle : (((found_stats found).length -
          searchsorted_right (found_stats found) t : ℕ) : ℝ) ≤ (dist.length : ℝ) := by
        have h1 : (found_stats found).length -
            searchsorted_right (found_stats found) t ≤ found.length := by
          have := found_stats_length found
          omega
        have h2 : (found_stats found).length -
            searchsorted_right (found_stats found) t ≤ dist.length :=
          le_trans h1 (huni rfl)
        exact_mod_cast h2
      set x : ℝ :=
        (((found_stats found).length - searchsorted_right (found_stats found) t : ℕ) : ℝ)
      have hid : (dist.length : ℝ) * (x / (dist.length : ℝ) -
          (x / (dist.length : ℝ)) ^ 2) = x - x ^ 2 / (dist.length : ℝ) := by
        field_simp
        ring
      rw [hid, sub_nonneg, div_le_iff₀ hN0]
      nlinarith [hxle, hx0]
    | true =>
      obtain ⟨hmne, hmpos, hflen⟩ := hchirp rfl
      rw [sample_variance_list, if_pos rfl, svp_list, mc_sum_list,
        zipWith_map_same] at hsv
      obtain ⟨t, ht, rfl⟩ := List.mem_map.mp hsv
      rw [Ninj_final, if_pos rfl]
      have hA : (rev_cumsum_table ((found_mchirp_total found massc).map
          (fun x => x ^ (5 : ℕ)))).getD
          (searchsorted_right (found_stats found) t) 0 =
          (((found.filter (fun p => decide (t < p.2))).map
            (fun p => massc.getD p.1 0)).map (fun x => x ^ (5 : ℕ))).sum := by
        rw [found_mchirp_total, List.map_map]
        have h := mc_table_entry found
          ((fun x => x ^ (5 : ℕ)) ∘ (fun p => massc.getD p.1 0)) t
        rw [h, List.map_map]
      have hB : (rev_cumsum_table ((found_mchirp_total found massc).map
          (fun x => x ^ ((5 : ℝ) / 2)))).getD
          (searchsorted_right (found_stats found) t) 0 =
          (((found.filter (fun p => decide (t < p.2))).map
            (fun p => massc.getD p.1 0)).map (fun x => x ^ ((5 : ℝ) / 2))).sum := by
        rw [found_mchirp_total, List.map_map]
        have h := mc_table_entry found
          ((fun x => x ^ ((5 : ℝ) / 2)) ∘ (fun p => massc.getD p.1 0)) t
        rw [h, List.map_map]
      rw [hA, hB]
      have hNpos : 0 < Ninj_chirp massc := Ninj_chirp_pos hmne hmpos
      have hNlen : (((found.filter (fun p => decide (t < p.2))).map
          (fun p => massc.getD p.1 0)).length : ℝ) ≤ Ninj_chirp massc := by
        have h1 : ((found.filter (fun p => decide (t < p.2))).map
            (fun p => massc.getD p.1 0)).length ≤ massc.length := by
          rw [List.length_map]
          exact le_trans (List.length_filter_le _ _) hflen
        have h2 := length_le_Ninj_chirp hmne hmpos
        have h3 : (((found.filter (fun p => decide (t < p.2))).map
            (fun p => massc.getD p.1 0)).length : ℝ) ≤ (massc.length : ℝ) := by
          exact_mod_cast h1
        linarith
      have hm2 : ∀ x ∈ (found.filter (fun p => decide (t < p.2))).map
          (fun p => massc.getD p.1 0), 0 ≤ x := by
        intro x hx
        obtain ⟨p, hp, rfl⟩ := List.mem_map.mp hx
        exact getD_nonneg_of_pos hmpos p.1
      have hcore := radicand_core_nonneg _ hm2 (Ninj_chirp massc) hNlen hNpos
      have hid : Ninj_chirp massc *
          ((((found.filter (fun p => decide (t < p.2))).map
            (fun p => massc.getD p.1 0)).map (fun x => x ^ (5 : ℕ))).sum /
              Ninj_chirp massc -
            ((((found.filter (fun p => decide (t < p.2))).map
              (fun p => massc.getD p.1 0)).map
              (fun x => x ^ ((5 : ℝ) / 2))).sum / Ninj_chirp massc) ^ 2) =
          (((found.filter (fun p => decide (t < p.2))).map
            (fun p => massc.getD p.1 0)).map (fun x => x ^ (5 : ℕ))).sum -
          ((((found.filter (fun p => decide (t < p.2))).map
            (fun p => massc.getD p.1 0)).map
            (fun x => x ^ ((5 : ℝ) / 2))).sum) ^ 2 / Ninj_chirp massc := by
        field_simp
        ring
      rw [hid]
      exact hcore
  refine ⟨hrad, ?_⟩
  intro e he
  rw [vol_err_list] at he
  obtain ⟨r, hr, rfl⟩ := List.mem_map.mp he
  apply mul_nonneg
  · exact prefactor_nonneg chirp massc dist hdne hdpos
      (fun hc => ⟨(hchirp hc).1, (hchirp hc).2.1⟩)
  · exact Real.rpow_nonneg (hrad r hr) _

/-- Witness for C8 at a concrete input (uniform mode, one injection at
distance `1`, no found injections, a single background threshold). -/
theorem volume_error_nonneg_witness :
    (([1] : List ℚ) ≠ [] ∧ (∀ d ∈ ([1] : List ℚ), 0 < d)) ∧
    (∀ r ∈ radicand_list false [] [] [1] [0], 0 ≤ r) :=
  ⟨⟨by decide, by decide⟩,
    (volume_error_nonneg false [] [] [1] [0] (by decide) (by decide)
      (fun h => by cases h) (fun _ => by decide)).1⟩

/-! ### The full `get_stats` pipeline (lines 104-272) and claim C9 -/

/-- The injection-parameter arrays handed to `get_stats` (read in `main` from
the injection file, lines 340-345). -/
structure InjParams where
  tc : List ℚ
  distance : List ℚ
  mass1 : List ℚ
  mass2 : List ℚ

/-- The computable part of the `ret` dictionary of `get_stats`, together with
the intermediate `found_injections`, `noise_stats` and duration needed by the
real-valued sensitivity block. -/
structure StatsCore where
  fg_events : List Event
  sorting_indices : List ℕ
  found_indices : List ℕ
  missed_indices : List ℕ
  true_positive_event_indices : List ℕ
  false_positive_event_indices : List ℕ
  true_positive_diffs : List ℚ
  false_positive_diffs : List ℚ
  true_positives : List Event
  false_positives : List Event
  fg_far : List ℚ
  far : List ℚ
  noise_stats : List ℚ
  found_injections : List (ℕ × ℚ)
  duration : ℚ

/-- All failure points and the integer/rational part of `get_stats`
(evaluate.py lines 104-219), in the order the code reaches them:
the broadcast of `mchirp(mass1, mass2)` (line 148), `injtimes.max()` when no
duration is given (line 150), the empty-reference check of
`find_closest_index` (lines 86-87 via line 156), the `found_injections[1]`
indexing of an empty array (lines 219-224), the fancy indexing
`massc[found_injections[0].astype(int)]` (line 227) and `dist.max()`
(line 229).  No length-consistency check between the injection arrays
exists anywhere. -/
def get_stats_core (fgevents bgevents : List Event) (injparams : InjParams)
    (duration : Option ℚ) (chirp_distance : Bool) : Except String StatsCore :=
  if chirp_distance ∧
      ¬ broadcastable injparams.mass1.length injparams.mass2.length then
    .error "operands could not be broadcast together"
  else if duration.isNone ∧ injparams.tc.isEmpty then
    .error "zero-size array to reduction operation maximum which has no identity"
  else if injparams.tc.isEmpty then
    .error "Cannot find closest index for empty input array."
  else
    let dur := match duration with
      | some d => d
      | none => np_max 0 injparams.tc - np_min 0 injparams.tc
    let fg := sort_fg fgevents
    let idxs := matched_idxs injparams.tc fg
    let tpb := tp_flags injparams.tc fg
    let tpidxs := tp_event_indices injparams.tc fg
    let fpidxs := fp_event_indices injparams.tc fg
    let found := found_injections_calc injparams.tc.length idxs tpb
      (fg.map Event.stat)
    if found.isEmpty then
      .error "index 1 is out of bounds for axis 0 with size 0"
    else if chirp_distance ∧ found.any (fun p =>
        decide (max injparams.mass1.length injparams.mass2.length ≤ p.1)) then
      .error "index is out of bounds for axis 0"
    else if injparams.distance.isEmpty then
      .error "zero-size array to reduction operation maximum which has no identity"
    else
      .ok { fg_events := fg
            sorting_indices := np_argsort 0 (fgevents.map Event.time)
            found_indices := found_indices injparams.tc.length idxs
            missed_indices := missed_indices injparams.tc.length idxs
            true_positive_event_indices := tpidxs
            false_positive_event_indices := fpidxs
            true_positive_diffs :=
              tpidxs.map (fun j => (event_diffs injparams.tc fg).getD j 0)
            false_positive_diffs :=
              fpidxs.map (fun j => (event_diffs injparams.tc fg).getD j 0)
            true_positives := tpidxs.map (fun j => fg.getD j default)
            false_positives := fpidxs.map (fun j => fg.getD j default)
            fg_far := far_rates (fpidxs.map (fun j => (fg.getD j default).stat)) dur
            far := far_rates (bgevents.map Event.stat) dur
            noise_stats := np_sort (bgevents.map Event.stat)
            found_injections := found
            duration := dur }

/-- The `ret` dictionary of `get_stats`: the computable core plus the four
real-valued sensitivity arrays of lines 221-270. -/
structure Results extends StatsCore where
  sensitive_volume : List ℝ
  sensitive_distance : List ℝ
  sensitive_volume_error : List ℝ
  sensitive_fraction : List ℝ

/-- Function `get_stats` (lines 104-272): the classification/FAR/aggregation core
followed by the sensitivity block. -/
noncomputable def get_stats (fgevents bgevents : List Event)
    (injparams : InjParams) (duration : Option ℚ) (chirp_distance : Bool) :
    Except String Results :=
  (get_stats_core fgevents bgevents injparams duration chirp_distance).map
    (fun core =>
      { core with
        sensitive_volume := vol_list chirp_distance core.found_injections
          (massc_of injparams.mass1 injparams.mass2) injparams.distance
          core.noise_stats
        sensitive_distance := sens_dist_list chirp_distance
          core.found_injections (massc_of injparams.mass1 injparams.mass2)
          injparams.distance core.noise_stats
        sensitive_volume_error := vol_err_list chirp_distance
          core.found_injections (massc_of injparams.mass1 injparams.mass2)
          injparams.distance core.noise_stats
        sensitive_fraction := sens_frac_list chirp_distance
          core.found_injections (massc_of injparams.mass1 injparams.mass2)
          injparams.distance core.noise_stats })

theorem isOk_map {ε α β : Type} (f : α → β) (r : Except ε α) :
    (r.map f).isOk = r.isOk := by
  cases r <;> rfl

/-- Counterexample to claim C9 as stated: the injection arrays `tc = [0]`
and `distance = [1, 2]` have unequal lengths, yet the evaluation completes
normally (no shape/consistency error is ever raised). -/
theorem get_stats_no_length_check :
    (⟨[0], [1, 2], [], []⟩ : InjParams).tc.length ≠
      (⟨[0], [1, 2], [], []⟩ : InjParams).distance.length ∧
    (get_stats [⟨0, 1, 1⟩] [⟨5, 1, 1⟩] ⟨[0], [1, 2], [], []⟩
      (some 100) false).isOk = true := by
  constructor
  · decide
  · rw [get_stats, isOk_map]
    norm_num [get_stats_core, sort_fg, np_argsort, np_sort, matched_idxs,
      tp_flags, event_diffs, fci_sorted, searchsorted_right, searchsorted_left,
      found_injections_calc, tp_event_indices, fp_event_indices, np_max, np_min,
      broadcastable, List.insertionSort, List.orderedInsert, Except.isOk,
      Except.toBool, List.range_succ, List.range_zero, List.filterMap_cons,
      List.filterMap_nil, List.countP_cons, List.countP_nil, List.isEmpty,
      List.take_succ_cons, List.drop_zero]

/-- Claim C9 amended: `get_stats` performs no length-consistency validation;
the only errors it can raise are the broadcast failure of
`mchirp(mass1, mass2)`, the empty-array reductions (`injtimes.max()`,
`dist.max()`), the empty-reference check of `find_closest_index` and the
out-of-bounds indexing when no injection is found or a found index exceeds
the chirp-mass array — none of which is a parallel-array length check, and a
mismatched `tc`/`distance` pair is accepted silently. -/
theorem get_stats_error_spec (fgevents bgevents : List Event)
    (injparams : InjParams) (duration : Option ℚ) (chirp_distance : Bool)
    (e : String)
    (h : get_stats fgevents bgevents injparams duration chirp_distance =
      .error e) :
    e = "operands could not be broadcast together" ∨
    e = "zero-size array to reduction operation maximum which has no identity" ∨
    e = "Cannot find closest index for empty input array." ∨
    e = "index 1 is out of bounds for axis 0 with size 0" ∨
    e = "index is out of bounds for axis 0" := by
  have hcore : get_stats_core fgevents bgevents injparams duration
      chirp_distance = .error e := by
    rw [get_stats] at h
    cases hc : get_stats_core fgevents bgevents injparams duration
        chirp_distance with
    | error e2 =>
      rw [hc] at h
      simp only [Except.map, Except.error.injEq] at h
      rw [← h]
    | ok c =>
      rw [hc] at h
      simp [Except.map] at h
  rw [get_stats_core.eq_def] at hcore
  dsimp only at hcore
  repeat' split at hcore
  all_goals cases hcore
  all_goals simp

/-- Witness for C9 (amended): an empty injection file with no given duration
fails with the empty-reduction error, one of the listed messages. -/
theorem get_stats_error_spec_witness :
    get_stats [] [] ⟨[], [], [], []⟩ none false =
      .error "zero-size array to reduction operation maximum which has no identity" ∧
    ("zero-size array to reduction operation maximum which has no identity" =
        "operands could not be broadcast together" ∨
      "zero-size array to reduction operation maximum which has no identity" =
        "zero-size array to reduction operation maximum which has no identity" ∨
      "zero-size array to reduction operation maximum which has no identity" =
        "Cannot find closest index for empty input array." ∨
      "zero-size array to reduction operation maximum which has no identity" =
        "index 1 is out of bounds for axis 0 with size 0" ∨
      "zero-size array to reduction operation maximum which has no identity" =
        "index is out of bounds for axis 0") :=
  ⟨by
    rw [get_stats]
    norm_num [get_stats_core, Except.map, broadcastable],
   get_stats_error_spec [] [] ⟨[], [], [], []⟩ none false _ (by
    rw [get_stats]
    norm_num [get_stats_core, Except.map, broadcastable])⟩

/-- Claim C4: the FAR estimator sorts the pool ascending and pairs the
statistic at sorted position `k` (0-indexed) among `N` with the rate
`(N - k - 1) / duration`, producing exactly one rate per input statistic
implicitly paired with the sorted statistic array, and `get_stats` applies
that same computation independently to the foreground (false-positive) pool
and to the background pool. -/
theorem far_curve_spec (pool : List ℚ) (duration : ℚ) :
    (far_rates pool duration).length = pool.length ∧
    (∀ k, k < pool.length →
      (far_rates pool duration).getD k 0 =
        ((pool.length : ℚ) - (k : ℚ) - 1) / duration) ∧
    (np_sort pool).Pairwise (· ≤ ·) ∧ (np_sort pool).Perm pool ∧
    (∀ (fg bg : List Event) (inj : InjParams) (dur : Option ℚ) (chirp : Bool),
      match get_stats_core fg bg inj dur chirp with
      | .ok c =>
          c.fg_far = far_rates ((fp_event_indices inj.tc (sort_fg fg)).map
            (fun j => ((sort_fg fg).getD j default).stat)) c.duration ∧
          c.far = far_rates (bg.map Event.stat) c.duration
      | .error _ => True) := by
  obtain ⟨h1, h2, h3, h4⟩ := far_rates_formula pool duration
  refine ⟨h1, h2, h3, h4, ?_⟩
  intro fg bg inj dur chirp
  cases hc : get_stats_core fg bg inj dur chirp with
  | error e => trivial
  | ok c =>
    rw [get_stats_core.eq_def] at hc
    dsimp only at hc
    repeat' split at hc
    all_goals cases hc
    all_goals exact ⟨rfl, rfl⟩

/-- Witness for C4 at a concrete input. -/
theorem far_curve_spec_witness :
    0 < ([3, 7] : List ℚ).length ∧
    (far_rates [3, 7] 100).getD 0 0 = ((2 : ℚ) - 0 - 1) / 100 :=
  ⟨by decide, by
    have h := (far_curve_spec [3, 7] 100).2.1 0 (by decide)
    norm_num at h
    norm_num [h]⟩

end Evaluate
